import Mathlib

/-!
Express (lathoub/Express): template renderer, path segmenter, route matcher.

A shallow embedding of `src/mustache.h`, `src/route.hpp` and of the parts of
`src/Express.h` that the specification talks about.

Conventions of the embedding.

* A C string is the list of its bytes before the terminating NUL; reading at
  an index at or beyond the end of the list yields NUL (`charAt`).
* Indices (`from`, `to`, `start`, `i`, `w`) are natural numbers: every call in
  the source passes non-negative values, and buffers are assumed short enough
  for their indices to fit the machine types `int` and `size_t`.  `find`
  returns an `Int` because the source returns `-1` for "not found".
* The output sink `client` is the list of bytes written so far.
* `to` and `from` are written `to_` and `from_`.
-/

namespace Express

/-! mustache.h -/

/-- The NUL byte that terminates a C string. -/
def NUL : Char := Char.ofNat 0

/-- Reads `line[i]` of a NUL-terminated buffer. -/
def charAt (line : List Char) (i : Nat) : Char := line.getD i NUL

/-- The bytes `line[start .. start+n)`, as `client.write(line + start, n)` and
`strncpy(_, line + start, n)` read them. -/
def slice (line : List Char) (start n : Nat) : List Char := (line.drop start).take n

/-- The `for` loop of `mustache::find`: `n` is the number of iterations left
(`to - i`), `i` the loop index, `w` and `j` the two locals.  Returns the
values of `w` and `j` when the loop is left (by exhaustion or by `break`). -/
def findLoop (line ss : List Char) : Nat → Nat → Nat → Nat → Nat × Nat
  | 0, _, w, j => (w, j)
  | n + 1, i, w, j =>
    if charAt line i = charAt ss j then findLoop line ss n (i + 1) i (j + 1)
    else if w > 0 then (w, j)
    else findLoop line ss n (i + 1) w j

/-- `mustache::find(line, ss, from, to)`: the value of `w` when both characters
of `ss` were matched (`j = 2`), else `-1`.  `ss` is a two-character C string,
so `ss[2]` is its NUL terminator. -/
def find (line ss : List Char) (from_ to_ : Nat) : Int :=
  let r := findLoop line ss (to_ - from_) from_ 0 0
  if 2 = r.2 then (r.1 : Int) else -1

/-- The open marker. -/
def openMarker : List Char := ['{', '{']

/-- The close marker. -/
def closeMarker : List Char := ['}', '}']

/-- Modelled from the spec: `locals_t` (declared in `defs.h`, which is not
available) is a mapping from keys to stringifiable values; a missing key
gives the empty substitution. -/
abbrev Locals := List (List Char × List Char)

/-- Modelled from the spec: `locals[key]`, the stringified value held for
`key`, empty when the key is missing. -/
def Locals.lookup (locals : Locals) (key : List Char) : List Char :=
  match List.lookup key locals with
  | some v => v
  | none => []

/-- Capacity of `char key_[15]`. -/
def keyCapacity : Nat := 15

/-- What a rendering call does.
* `done out`: it returned, having written `out` to the client;
* `keyOverflow out n`: after writing `out` it reached
  `strncpy(key_, _, n); key_[n] = 0` with `n ≥ 15`, a store outside the
  15-byte `key_` (undefined behaviour in C, so the model stops there);
* `fuelOut`: the iteration bound of the model was reached. -/
inductive Outcome where
  | done (out : List Char)
  | keyOverflow (out : List Char) (n : Nat)
  | fuelOut
  deriving DecidableEq, Repr

/-- The tail of `mustache::renderLine` after its `while` loop. -/
def renderTail (line : List Char) (from_ to_ : Nat) (out : List Char) : Outcome :=
  if from_ < to_ then
    .done (out ++ slice line from_ (to_ - from_) ++ ['\n'])
  else
    .done out

/-- The `while (from < to)` loop of `mustache::renderLine` followed by the
tail; the first argument bounds the number of iterations.  `index` is the
result of the scan for the open marker, `index2` of the scan for the close
marker; the two lengths `index - from - 1` are turned into naturals.  The key
is the C string in `key_`, so it stops at a NUL. -/
def renderLineLoop (locals : Locals) (line : List Char) (to_ : Nat) :
    Nat → Nat → List Char → Outcome
  | 0, _, _ => .fuelOut
  | fuel + 1, from_, out =>
    if from_ < to_ then
      let index := find line openMarker from_ to_
      if index < 1 then renderTail line from_ to_ out
      else
        let out1 := out ++ slice line from_ (index - from_ - 1).toNat
        let from1 := index.toNat + 1
        let index2 := find line closeMarker from1 to_
        if index2 < 1 then .done out1
        else
          let n := (index2 - from1 - 1).toNat
          if keyCapacity ≤ n then .keyOverflow out1 n
          else
            let key := (slice line from1 n).takeWhile (fun c => c != NUL)
            renderLineLoop locals line to_ fuel (index2.toNat + 1)
              (out1 ++ locals.lookup key)
    else renderTail line from_ to_ out

/-- `mustache::renderLine(client, line, from, to, locals)`, where `out` is
what the client has received so far.  Every iteration increases `from`, so
`to - from + 1` iterations are enough. -/
def renderLine (locals : Locals) (line : List Char) (from_ to_ : Nat)
    (out : List Char) : Outcome :=
  renderLineLoop locals line to_ (to_ - from_ + 1) from_ out

/-- The inner loop of `mustache::renderFile`: the first index `p ≥ pos` with
`f[p] = '\n'` or `f[p] = NUL`; `n` bounds the number of steps.  `renderFile`
passes `n = f.length - pos`: the terminator is read at index `f.length` at the
latest. -/
def scanLine (f : List Char) : Nat → Nat → Nat
  | 0, pos => pos
  | n + 1, pos =>
    if charAt f pos ≠ '\n' ∧ charAt f pos ≠ NUL then scanLine f n (pos + 1) else pos

/-- The outer loop of `mustache::renderFile`; at its head `i = 0`, and `stop`
is `start + i` after the inner loop.  The first argument bounds the number of
iterations. -/
def renderFileLoop (locals : Locals) (f : List Char) :
    Nat → Nat → List Char → Outcome
  | 0, _, _ => .fuelOut
  | fuel + 1, start, out =>
    if charAt f start ≠ NUL then
      let stop := scanLine f (f.length - start) start
      match renderLine locals f start stop out with
      | .done out1 =>
        if charAt f stop = NUL then .done out1
        else renderFileLoop locals f fuel (stop + 1) out1
      | r => r
    else .done out

/-- `mustache::renderFile(client, locals, f)` on a fresh client.  Every
iteration of the outer loop increases `start`, so `f.length + 1` iterations
are enough. -/
def renderFile (locals : Locals) (f : List Char) : Outcome :=
  renderFileLoop locals f (f.length + 1) 0 []

/-! route.hpp -/

/-- Modelled from the spec: `PosLen` (declared in `defs.h`, which is not
available) is a segment descriptor `{offset, length}` into the owning string;
`splitToVector` builds it as `{p, i - p}`. -/
structure PosLen where
  pos : Nat
  len : Nat
  deriving DecidableEq, Repr

/-- The path separator, `Route::delimiter`. -/
def delimiter : Char := '/'

/-- The `for` loop of `Route::splitToVector` and the `push_back` after it:
`n` is the number of iterations left (`path.length() - i`, or 0 when `i` is
already beyond the length), `p` and `i` the two locals. -/
def splitLoop (path : List Char) : Nat → Nat → Nat → List PosLen → List PosLen
  | 0, p, i, poslens => poslens ++ [⟨p, i - p⟩]
  | n + 1, p, i, poslens =>
    if charAt path i = delimiter then splitLoop path n i (i + 1) (poslens ++ [⟨p, i - p⟩])
    else splitLoop path n p (i + 1) poslens

/-- `Route::splitToVector(path, poslens)` (the static overload): the loop
starts with `p = 0, i = 1` and runs while `i < path.length()`. -/
def splitToVector (path : List Char) (poslens : List PosLen) : List PosLen :=
  splitLoop path (path.length - 1) 0 1 poslens

/-- The text `s[pos, pos+len)` a descriptor denotes. -/
def segment (s : List Char) (d : PosLen) : List Char := slice s d.pos d.len

/-- Segments `v` tile the interval `[a, b)`: offsets are consecutive, lengths
positive. -/
def Tiles : Nat → List PosLen → Nat → Prop
  | a, [], b => a = b
  | a, d :: v, b => d.pos = a ∧ 1 ≤ d.len ∧ Tiles (a + d.len) v b

/-! Express.h: route matching and the middleware chain

`Express::match` and `Express::evaluate` are declared in `Express.h`; their
bodies are not available, so they are modelled from the specification
(sections 4.2, 4.3). -/

/-- Modelled from the spec: the text of a segment, excluding its leading
separator (`Express::match`, whose body is missing, looks at it). -/
def segmentText (s : List Char) (d : PosLen) : List Char :=
  match segment s d with
  | [] => []
  | c :: t => if c = delimiter then t else c :: t

/-- Modelled from the spec: a pattern segment whose text (excluding the
leading separator) starts with `:` is a parameter (body of `Express::match`
missing). -/
def isParam (path : List Char) (d : PosLen) : Bool :=
  match segmentText path d with
  | [] => false
  | c :: _ => c = ':'

/-- Modelled from the spec: the name of a parameter segment is the text after
the `:` (body of `Express::match` missing). -/
def paramName (path : List Char) (d : PosLen) : List Char := (segmentText path d).tail

/-- Modelled from the spec: `params_t` (declared in `defs.h`, which is
missing) is the ParameterMap, name to bound value. -/
abbrev Params := List (List Char × List Char)

/-- Modelled from the spec: binding a name in the ParameterMap (missing
`params_t`); a name holds one value, the one bound last. -/
def Params.bind (params : Params) (name value : List Char) : Params :=
  (name, value) :: params

/-- Modelled from the spec: the value the ParameterMap holds for a name
(missing `params_t`). -/
def Params.value (params : Params) (name : List Char) : Option (List Char) :=
  List.lookup name params

/-- Modelled from the spec: the iteration over segment pairs of
`Express::match` (body missing): a parameter segment binds its name to the
text of the request segment unconditionally, any other segment must equal the
request segment in full, separator included; bindings made before a failing
pair stay in `params`.  `match_` calls it on lists of equal length only. -/
def matchLoop (path requestPath : List Char) : List PosLen → List PosLen → Params → Bool × Params
  | a :: ps, b :: rs, params =>
    if isParam path a then
      matchLoop path requestPath ps rs
        (params.bind (paramName path a) (segmentText requestPath b))
    else if segment requestPath b = segment path a then
      matchLoop path requestPath ps rs params
    else (false, params)
  | _, _, params => (true, params)

/-- Modelled from the spec: `Express::match(path, pathItems, requestPath,
requestPathItems, params)` (body missing): fails at once when the segment
counts differ, else iterates over the pairs.  Returns the result and the
updated `params`. -/
def match_ (path : List Char) (pathItems : List PosLen) (requestPath : List Char)
    (requestPathItems : List PosLen) (params : Params) : Bool × Params :=
  if requestPathItems.length ≠ pathItems.length then (false, params)
  else matchLoop path requestPath pathItems requestPathItems params

/-- Type of a chain unit, `MiddlewareCallback = void (*)(Request &, Response &,
bool &next)`: it reads and updates the request/response state `σ` and the
continuation flag. -/
abbrev MiddlewareCallback (σ : Type) := σ → Bool → σ × Bool

/-- Modelled from the spec: the effective chain of a matched route (built by
`Express::evaluate`, whose body is missing): app-level middlewares, then the
route's middlewares, then the terminal handler. -/
def effectiveChain {σ : Type} (middlewares routeMiddlewares : List (MiddlewareCallback σ))
    (fptrCallback : MiddlewareCallback σ) : List (MiddlewareCallback σ) :=
  middlewares ++ routeMiddlewares ++ [fptrCallback]

/-- Modelled from the spec: the sequential execution of a chain by
`Express::evaluate` (body missing).  Each unit is invoked with the flag set
(the default continuation); the first unit that clears it stops the chain.
Returns the final state and the units that were invoked, in order. -/
def runChain {σ : Type} : List (MiddlewareCallback σ) → σ → σ × List (MiddlewareCallback σ)
  | [], s => (s, [])
  | u :: us, s =>
    if (u s true).2 then ((runChain us (u s true).1).1, u :: (runChain us (u s true).1).2)
    else ((u s true).1, [u])

/-- The state after every unit of `units` has run in order, that is the state
in which the next unit of the chain is invoked. -/
def stateAfter {σ : Type} (units : List (MiddlewareCallback σ)) (s : σ) : σ :=
  units.foldl (fun st u => (u st true).1) s

/-- A unit that logs its name and leaves the flag as it is. -/
def logUnit (name : Char) : MiddlewareCallback (List Char) := fun s next => (s ++ [name], next)

/-- A unit that logs its name and clears the flag. -/
def haltUnit (name : Char) : MiddlewareCallback (List Char) := fun s _ => (s ++ [name], false)

/-! Express.h: routes, mounts and the dispatcher

`Express::evaluate`, `Express::METHOD` and `Express::use` are declared in
`Express.h`; their bodies are not available, so the dispatcher is modelled
from the specification (sections 3, 4.4 and 6). -/

/-- Modelled from the spec: `enum Method` (declared in `defs.h`, which is not
available).  `Route` defaults to `Method::UNDEFINED`, the spec names `ALL`,
and `Express.h` registers routes for the other verbs. -/
inductive Method where
  | UNDEFINED
  | GET
  | POST
  | PUT
  | DELETE
  | HEAD
  | ALL
  deriving DecidableEq, Repr

/-- The part of `class Request` the dispatcher consumes and writes back:
method, path and the parameter map. -/
structure Request where
  method : Method
  path : List Char
  params : Params

/-- The fields of `class Route` that matter for matching and dispatch (the
data and end callbacks are left out); `σ` is the state a chain unit works on.
The terminal handler `fptrCallback` is taken to be present. -/
structure Route (σ : Type) where
  method : Method
  path : List Char
  middlewares : List (MiddlewareCallback σ)
  fptrCallback : MiddlewareCallback σ
  indices : List PosLen

/-- The member `Route::splitToVector(path)`: it passes the route's own
`indices` to the static overload. -/
def Route.splitToVector {σ : Type} (r : Route σ) (path : List Char) : Route σ :=
  { r with indices := Express.splitToVector path r.indices }

/-- Modelled from the spec: a route as registration creates it
(`Express::METHOD`, body missing): the segments of the pattern are computed
once, into an empty `indices`. -/
def Route.create {σ : Type} (method : Method) (path : List Char)
    (middlewares : List (MiddlewareCallback σ)) (fptrCallback : MiddlewareCallback σ) :
    Route σ :=
  Route.splitToVector ⟨method, path, middlewares, fptrCallback, []⟩ path

/-- Modelled from the spec: the Dispatcher, `class Express` (bodies of its
methods missing): routes in registration order, app-level middlewares, and
the mount table from mount path to child dispatcher, in the order in which
`evaluate` visits it.  `ρ` is the response side of the state; a chain unit
works on the pair of request and response.  The parent back-reference, used
only for path canonicalization, is left out. -/
inductive Dispatcher (ρ : Type) where
  | mk (routes : List (Route (Request × ρ)))
      (middlewares : List (MiddlewareCallback (Request × ρ)))
      (mountPaths : List (List Char × Dispatcher ρ))

/-- Modelled from the spec: whether a route accepts a request (part of
`Express::evaluate`, body missing): the method is checked first (equal, or
the route is for `ALL`), then the route matcher runs on the cached segments
of the pattern and the segments of the request path, from an empty parameter
map.  Returns the verdict and the parameters bound. -/
def routeAccepts {σ : Type} (r : Route σ) (req : Request) : Bool × Params :=
  if r.method = req.method ∨ r.method = Method.ALL then
    match_ r.path r.indices req.path (Express.splitToVector req.path []) []
  else (false, [])

/-- Modelled from the spec: the first route, in registration order, that
accepts the request (part of `Express::evaluate`, body missing), with its
index and the parameters bound. -/
def firstMatch {σ : Type} : List (Route σ) → Request → Option (Nat × Route σ × Params)
  | [], _ => none
  | r :: rs, req =>
    if (routeAccepts r req).1 then some (0, r, (routeAccepts r req).2)
    else (firstMatch rs req).map (fun x => (x.1 + 1, x.2))

/-- Modelled from the spec: the path a child dispatcher is evaluated with
(part of `Express::evaluate`, body missing): the request path with the mount
path stripped, or `/` when nothing remains. -/
def mountRemainder (mountPath path : List Char) : List Char :=
  if path.drop mountPath.length = [] then ['/'] else path.drop mountPath.length

/-- What `Express::evaluate` leaves: the result `handled`, the request and
response after the chain, and the units that were invoked, in order. -/
structure Evaluation (ρ : Type) where
  handled : Bool
  state : Request × ρ
  executed : List (MiddlewareCallback (Request × ρ))

mutual
/-- Modelled from the spec: `Express::evaluate(req, res)` (body missing).  The
first route that accepts the request gets `request.params` populated and its
effective chain run, and `handled = true` is returned at once.  If no route
accepts, the mount table is tried. -/
def Dispatcher.evaluate {ρ : Type} : Dispatcher ρ → Request → ρ → Evaluation ρ
  | .mk routes middlewares mountPaths, req, res =>
    match firstMatch routes req with
    | some (_, r, params) =>
      ⟨true,
        (runChain (effectiveChain middlewares r.middlewares r.fptrCallback)
          ({ req with params := params }, res)).1,
        (runChain (effectiveChain middlewares r.middlewares r.fptrCallback)
          ({ req with params := params }, res)).2⟩
    | none => evaluateMounts mountPaths req res
/-- Modelled from the spec: the mount part of `Express::evaluate` (body
missing): the first mount entry whose path is a literal beginning of the
request path gets the request with the mount path stripped, and the result of
the child is returned; with no such entry nothing is handled. -/
def evaluateMounts {ρ : Type} :
    List (List Char × Dispatcher ρ) → Request → ρ → Evaluation ρ
  | [], req, res => ⟨false, (req, res), []⟩
  | (mountPath, child) :: rest, req, res =>
    if mountPath <+: req.path then
      child.evaluate { req with path := mountRemainder mountPath req.path } res
    else evaluateMounts rest req res
end

/-- A unit that appends its name to the response and leaves the flag as it
is. -/
def respondUnit (name : Char) : MiddlewareCallback (Request × List Char) :=
  fun s next => ((s.1, s.2 ++ [name]), next)

/-- A unit that changes nothing. -/
def silentUnit : MiddlewareCallback (Request × List Char) := fun s next => (s, next)

/-- The text of a line with markers: each literal text followed by its marker
`{{key}}`. -/
def markerLine (ms : List (List Char × List Char)) : List Char :=
  (ms.map (fun m => m.1 ++ openMarker ++ m.2 ++ closeMarker)).flatten

/-- The expected rendering of `markerLine`: each literal text followed by the
value of its key. -/
def markerLineValue (locals : Locals) (ms : List (List Char × List Char)) : List Char :=
  (ms.map (fun m => m.1 ++ locals.lookup m.2)).flatten

/-- Separator structure of one descriptor: it starts at offset 0 or on a
separator, and holds no separator after its first character. -/
def SepOk (path : List Char) (d : PosLen) : Prop :=
  (d.pos = 0 ∨ charAt path d.pos = delimiter) ∧
  ∀ k, d.pos < k → k < d.pos + d.len → charAt path k ≠ delimiter

/-- A route for `GET /:x` whose handler writes `X`. -/
def wildcardRoute : Route (Request × List Char) :=
  Route.create Method.GET "/:x".toList [] (respondUnit 'X')

/-- A route for `GET /a` whose handler writes `A`. -/
def firstRoute : Route (Request × List Char) :=
  Route.create Method.GET "/a".toList [] (respondUnit 'A')

/-- A second route for `GET /a`, whose handler writes `B`. -/
def secondRoute : Route (Request × List Char) :=
  Route.create Method.GET "/a".toList [] (respondUnit 'B')

/-- A route for `GET /b` whose handler writes `O`. -/
def otherRoute : Route (Request × List Char) :=
  Route.create Method.GET "/b".toList [] (respondUnit 'O')

/-- The request `GET /a`. -/
def requestA : Request := ⟨Method.GET, "/a".toList, []⟩

/-- A child dispatcher with the routes `GET /users` (writes `U`) and `GET /`
(writes `R`). -/
def apiChild : Dispatcher (List Char) :=
  .mk [Route.create Method.GET "/users".toList [] (respondUnit 'U'),
       Route.create Method.GET "/".toList [] (respondUnit 'R')] [] []

/-- A dispatcher without routes that mounts `apiChild` at `/api`. -/
def apiParent : Dispatcher (List Char) := .mk [] [] [("/api".toList, apiChild)]

/-! Template renderer: lemmas about `find` -/

theorem charAt_append_left (xs ys : List Char) (i : Nat) (h : i < xs.length) :
    charAt (xs ++ ys) i = charAt xs i := by
  simp only [charAt]
  exact List.getD_append xs ys NUL i h

theorem charAt_append_right (xs ys : List Char) (k : Nat) :
    charAt (xs ++ ys) (xs.length + k) = charAt ys k := by
  simp only [charAt]
  rw [List.getD_append_right xs ys NUL _ (by omega)]
  congr 1
  omega

theorem charAt_mem (xs : List Char) (i : Nat) (h : i < xs.length) : charAt xs i ∈ xs := by
  simp only [charAt]
  rw [List.getD_eq_getElem xs NUL h]
  exact List.getElem_mem h

theorem charAt_length_le (xs : List Char) (i : Nat) (h : xs.length ≤ i) : charAt xs i = NUL := by
  simp only [charAt]
  exact List.getD_eq_default xs NUL h

theorem findLoop_skip (line ss : List Char) (n m i j : Nat)
    (h : ∀ k, k < n → charAt line (i + k) ≠ charAt ss j) :
    findLoop line ss (n + m) i 0 j = findLoop line ss m (i + n) 0 j := by
  induction n generalizing i with
  | zero => simp
  | succ n ih =>
    have h0 : charAt line i ≠ charAt ss j := by simpa using h 0 (by omega)
    rw [show n + 1 + m = (n + m) + 1 by omega]
    simp only [findLoop, if_neg h0, Nat.lt_irrefl, if_false, gt_iff_lt]
    rw [ih (i + 1) (fun k hk => by
      have := h (k + 1) (by omega)
      rwa [show i + (k + 1) = i + 1 + k by omega] at this)]
    congr 1
    omega

theorem findLoop_hit (line ss : List Char) (m a : Nat)
    (h0 : charAt line a = charAt ss 0) (h1 : charAt line (a + 1) = charAt ss 1)
    (h2 : m = 0 ∨ charAt line (a + 2) ≠ charAt ss 2) :
    findLoop line ss (m + 2) a 0 0 = (a + 1, 2) := by
  simp only [findLoop, h0, h1, if_true]
  cases m with
  | zero => simp [findLoop]
  | succ m =>
    have h3 : charAt line (a + 2) ≠ charAt ss 2 := by
      rcases h2 with h2 | h2
      · omega
      · exact h2
    simp [findLoop, h3]

/-- The scan finds the marker whose first character is the first occurrence
of `ss[0]` in the window, when that occurrence is directly followed by
`ss[1]` and the character after the marker, if inside the window, differs
from `ss[2]`. -/
theorem find_hit (line ss : List Char) (from_ to_ a : Nat)
    (hfa : from_ ≤ a) (hat : a + 2 ≤ to_)
    (hskip : ∀ i, from_ ≤ i → i < a → charAt line i ≠ charAt ss 0)
    (h0 : charAt line a = charAt ss 0) (h1 : charAt line (a + 1) = charAt ss 1)
    (h2 : a + 2 < to_ → charAt line (a + 2) ≠ charAt ss 2) :
    find line ss from_ to_ = ((a + 1 : Nat) : Int) := by
  have e : to_ - from_ = (a - from_) + ((to_ - a - 2) + 2) := by omega
  simp only [find]
  rw [e, findLoop_skip line ss (a - from_) _ from_ 0
    (fun k hk => hskip (from_ + k) (by omega) (by omega)),
    show from_ + (a - from_) = a by omega,
    findLoop_hit line ss _ a h0 h1 (by
      by_cases h : a + 2 < to_
      · exact Or.inr (h2 h)
      · exact Or.inl (by omega))]
  simp

/-- The scan reports "not found" when `ss[0]` does not occur in the window. -/
theorem find_absent (line ss : List Char) (from_ to_ : Nat)
    (hskip : ∀ i, from_ ≤ i → i < to_ → charAt line i ≠ charAt ss 0) :
    find line ss from_ to_ = -1 := by
  simp only [find]
  have := findLoop_skip line ss (to_ - from_) 0 from_ 0
    (fun k hk => hskip (from_ + k) (by omega) (by omega))
  rw [Nat.add_zero] at this
  rw [this]
  simp [findLoop]

/-- The scan reports "not found" when the first occurrence of `ss[0]` in the
window, at an index `a ≥ 1`, is the last character of the window or is
followed by a character other than `ss[1]`. -/
theorem find_lone (line ss : List Char) (from_ to_ a : Nat)
    (hfa : from_ ≤ a) (hat : a < to_) (ha : 1 ≤ a)
    (hskip : ∀ i, from_ ≤ i → i < a → charAt line i ≠ charAt ss 0)
    (h0 : charAt line a = charAt ss 0)
    (h1 : a + 1 < to_ → charAt line (a + 1) ≠ charAt ss 1) :
    find line ss from_ to_ = -1 := by
  have e : to_ - from_ = (a - from_) + ((to_ - a - 1) + 1) := by omega
  simp only [find]
  rw [e, findLoop_skip line ss (a - from_) _ from_ 0
    (fun k hk => hskip (from_ + k) (by omega) (by omega)),
    show from_ + (a - from_) = a by omega]
  simp only [findLoop, h0, if_true]
  by_cases h : a + 1 < to_
  · obtain ⟨m, hm⟩ : ∃ m, to_ - a - 1 = m + 1 := ⟨to_ - a - 2, by omega⟩
    rw [hm]
    have hpos : 0 < a := by omega
    simp [findLoop, h1 h, hpos]
  · rw [show to_ - a - 1 = 0 by omega]
    simp [findLoop]

/-- The scan reports "not found" in a window in which no occurrence of `ss[0]`
is directly followed by `ss[1]`, provided the window does not start with
`ss[0]` at buffer index 0. -/
theorem find_no_pair (line ss : List Char) (from_ to_ : Nat)
    (hfrom : 1 ≤ from_ ∨ charAt line from_ ≠ charAt ss 0)
    (hno : ∀ i, from_ ≤ i → i + 1 < to_ →
      ¬ (charAt line i = charAt ss 0 ∧ charAt line (i + 1) = charAt ss 1)) :
    find line ss from_ to_ = -1 := by
  by_cases h : ∃ i, from_ ≤ i ∧ i < to_ ∧ charAt line i = charAt ss 0
  · classical
    have hs := Nat.find_spec h
    have hm := fun i (hi : i < Nat.find h) => Nat.find_min h hi
    generalize Nat.find h = a at hs hm
    have ha : 1 ≤ a := by
      rcases hfrom with h1 | h1
      · omega
      · rcases Nat.eq_zero_or_pos a with h0 | h0
        · have : from_ = a := by omega
          rw [this] at h1
          exact absurd hs.2.2 h1
        · exact h0
    refine find_lone line ss from_ to_ a hs.1 hs.2.1 ha ?_ hs.2.2 ?_
    · intro i h1 h2 h3
      exact hm i h2 ⟨h1, by omega, h3⟩
    · intro h1 h2
      exact hno a hs.1 h1 ⟨hs.2.2, h2⟩
  · refine find_absent line ss from_ to_ ?_
    intro i h1 h2 h3
    exact h ⟨i, h1, h2, h3⟩

theorem infix_of_charAt (c0 c1 : Char) (l : List Char) (k : Nat) (hk : k + 1 < l.length)
    (h0 : charAt l k = c0) (h1 : charAt l (k + 1) = c1) : [c0, c1] <:+: l := by
  refine ⟨l.take k, l.drop (k + 2), ?_⟩
  have e0 : l[k] = c0 := by
    rw [charAt, List.getD_eq_getElem l NUL (by omega)] at h0
    exact h0
  have e1 : l[k + 1] = c1 := by
    rw [charAt, List.getD_eq_getElem l NUL hk] at h1
    exact h1
  have d1 : l.drop k = l[k] :: l.drop (k + 1) := List.drop_eq_getElem_cons (by omega)
  have d2 : l.drop (k + 1) = l[k + 1] :: l.drop (k + 2) := List.drop_eq_getElem_cons hk
  calc l.take k ++ [c0, c1] ++ l.drop (k + 2)
      = l.take k ++ (c0 :: c1 :: l.drop (k + 2)) := by simp
    _ = l.take k ++ l.drop k := by rw [d1, d2, e0, e1]
    _ = l := List.take_append_drop k l

theorem findLoop_snd_ge (line ss : List Char) (n i w j : Nat) :
    j ≤ (findLoop line ss n i w j).2 := by
  induction n generalizing i w j with
  | zero => simp [findLoop]
  | succ n ih =>
    simp only [findLoop]
    split
    · exact Nat.le_trans (Nat.le_succ j) (ih (i + 1) i (j + 1))
    · split
      · exact Nat.le_refl j
      · exact ih (i + 1) w j

/-- Once both characters are matched, the scan keeps `w`. -/
theorem findLoop_from_two (line ss : List Char) (n i w : Nat)
    (h : (findLoop line ss n i w 2).2 = 2) : (findLoop line ss n i w 2).1 = w := by
  induction n generalizing i with
  | zero => simp [findLoop]
  | succ n ih =>
    by_cases he : charAt line i = charAt ss 2
    · have e : findLoop line ss (n + 1) i w 2 = findLoop line ss n (i + 1) i 3 := by
        simp [findLoop, he]
      rw [e] at h
      have := findLoop_snd_ge line ss n (i + 1) i 3
      omega
    · by_cases hw : w > 0
      · simp [findLoop, he, hw]
      · have e : findLoop line ss (n + 1) i w 2 = findLoop line ss n (i + 1) w 2 := by
          simp [findLoop, he, hw]
        rw [e] at h ⊢
        exact ih (i + 1) h

/-- With the first character matched, a successful scan ends on a later
index that holds the second character. -/
theorem findLoop_from_one (line ss : List Char) (n i w : Nat)
    (h : (findLoop line ss n i w 1).2 = 2) :
    i ≤ (findLoop line ss n i w 1).1 ∧ (findLoop line ss n i w 1).1 < i + n ∧
    charAt line (findLoop line ss n i w 1).1 = charAt ss 1 := by
  induction n generalizing i with
  | zero => simp [findLoop] at h
  | succ n ih =>
    by_cases he : charAt line i = charAt ss 1
    · have e : findLoop line ss (n + 1) i w 1 = findLoop line ss n (i + 1) i 2 := by
        simp [findLoop, he]
      rw [e] at h ⊢
      rw [findLoop_from_two line ss n (i + 1) i h]
      exact ⟨Nat.le_refl i, by omega, he⟩
    · by_cases hw : w > 0
      · simp [findLoop, he, hw] at h
      · have e : findLoop line ss (n + 1) i w 1 = findLoop line ss n (i + 1) w 1 := by
          simp [findLoop, he, hw]
        rw [e] at h ⊢
        obtain ⟨h1, h2, h3⟩ := ih (i + 1) h
        exact ⟨by omega, by omega, h3⟩

/-- A successful scan from the initial state ends on an index that holds the
second character, after an index that holds the first one. -/
theorem findLoop_from_zero (line ss : List Char) (n i : Nat)
    (h : (findLoop line ss n i 0 0).2 = 2) :
    (findLoop line ss n i 0 0).1 < i + n ∧
    charAt line (findLoop line ss n i 0 0).1 = charAt ss 1 ∧
    ∃ k, i ≤ k ∧ k < (findLoop line ss n i 0 0).1 ∧ charAt line k = charAt ss 0 := by
  induction n generalizing i with
  | zero => simp [findLoop] at h
  | succ n ih =>
    by_cases he : charAt line i = charAt ss 0
    · have e : findLoop line ss (n + 1) i 0 0 = findLoop line ss n (i + 1) i 1 := by
        simp [findLoop, he]
      rw [e] at h ⊢
      obtain ⟨h1, h2, h3⟩ := findLoop_from_one line ss n (i + 1) i h
      exact ⟨by omega, h3, i, Nat.le_refl i, by omega, he⟩
    · have e : findLoop line ss (n + 1) i 0 0 = findLoop line ss n (i + 1) 0 0 := by
        simp [findLoop, he]
      rw [e] at h ⊢
      obtain ⟨h1, h2, k, h3, h4, h5⟩ := ih (i + 1) h
      exact ⟨by omega, h2, k, by omega, h4, h5⟩

/-- The scan returns `-1` or an index strictly inside the window that holds
`ss[1]` and comes after an index of the window that holds `ss[0]`. -/
theorem find_bounds (line ss : List Char) (from_ to_ : Nat) :
    find line ss from_ to_ = -1 ∨
    ∃ w : Nat, find line ss from_ to_ = (w : Int) ∧ from_ < w ∧ w < to_ ∧
      charAt line w = charAt ss 1 ∧
      ∃ k, from_ ≤ k ∧ k < w ∧ charAt line k = charAt ss 0 := by
  simp only [find]
  by_cases h : 2 = (findLoop line ss (to_ - from_) from_ 0 0).2
  · rw [if_pos h]
    obtain ⟨h1, h2, k, h3, h4, h5⟩ := findLoop_from_zero line ss _ from_ h.symm
    exact Or.inr ⟨_, rfl, by omega, by omega, h2, k, h3, h4, h5⟩
  · rw [if_neg h]
    exact Or.inl rfl

theorem findLoop_congr (l1 l2 ss : List Char) (n i w j : Nat)
    (h : ∀ k, i ≤ k → k < i + n → charAt l1 k = charAt l2 k) :
    findLoop l1 ss n i w j = findLoop l2 ss n i w j := by
  induction n generalizing i w j with
  | zero => rfl
  | succ n ih =>
    simp only [findLoop, h i (Nat.le_refl i) (by omega)]
    rw [ih (i + 1) i (j + 1) (fun k h1 h2 => h k (by omega) (by omega)),
      ih (i + 1) w j (fun k h1 h2 => h k (by omega) (by omega))]

/-- The scan reads the buffer inside its window only. -/
theorem find_congr (l1 l2 ss : List Char) (from_ to_ : Nat)
    (h : ∀ k, from_ ≤ k → k < to_ → charAt l1 k = charAt l2 k) :
    find l1 ss from_ to_ = find l2 ss from_ to_ := by
  simp only [find]
  rw [findLoop_congr l1 l2 ss (to_ - from_) from_ 0 0 (fun k h1 h2 => h k h1 (by omega))]

/-! Template renderer: lemmas about `renderLine` and `renderFile` -/

theorem charAt_openMarker : charAt openMarker 0 = '{' ∧ charAt openMarker 1 = '{' ∧
    charAt openMarker 2 = NUL := ⟨rfl, rfl, rfl⟩

theorem charAt_closeMarker : charAt closeMarker 0 = '}' ∧ charAt closeMarker 1 = '}' ∧
    charAt closeMarker 2 = NUL := ⟨rfl, rfl, rfl⟩

/-- One iteration of the loop of `renderLine` over a terminated marker, with
the open marker at `a`, the close marker at `b` and the key between them
shorter than the key buffer. -/
theorem renderLineLoop_marker (locals : Locals) (line : List Char) (to_ fuel from_ a b : Nat)
    (out : List Char) (hfa : from_ ≤ a) (hab : a + 2 ≤ b) (hbt : b + 2 ≤ to_)
    (hpre : ∀ i, from_ ≤ i → i < a → charAt line i ≠ '{')
    (ha0 : charAt line a = '{') (ha1 : charAt line (a + 1) = '{')
    (ha2 : charAt line (a + 2) ≠ NUL)
    (hkey : ∀ i, a + 2 ≤ i → i < b → charAt line i ≠ '}')
    (hb0 : charAt line b = '}') (hb1 : charAt line (b + 1) = '}')
    (hb2 : b + 2 < to_ → charAt line (b + 2) ≠ NUL)
    (hlen : b - (a + 2) < keyCapacity) :
    renderLineLoop locals line to_ (fuel + 1) from_ out
      = renderLineLoop locals line to_ fuel (b + 2)
          (out ++ slice line from_ (a - from_)
            ++ locals.lookup ((slice line (a + 2) (b - (a + 2))).takeWhile (fun c => c != NUL))) := by
  have hopen : find line openMarker from_ to_ = ((a + 1 : Nat) : Int) :=
    find_hit line openMarker from_ to_ a hfa (by omega) hpre ha0 ha1 (fun _ => ha2)
  have hclose : find line closeMarker (a + 2) to_ = ((b + 1 : Nat) : Int) :=
    find_hit line closeMarker (a + 2) to_ b hab hbt (fun i h1 h2 => hkey i h1 h2) hb0 hb1 hb2
  have hft : from_ < to_ := by omega
  have e1 : (((a + 1 : Nat) : Int) - (from_ : Int) - 1).toNat = a - from_ := by omega
  have e2 : (((b + 1 : Nat) : Int) - ((a + 1 + 1 : Nat) : Int) - 1).toNat = b - (a + 2) := by
    omega
  have e3 : ¬ (((a + 1 : Nat) : Int) < 1) := by omega
  have e4 : ¬ (((b + 1 : Nat) : Int) < 1) := by omega
  have e5 : ¬ (keyCapacity ≤ b - (a + 2)) := by omega
  simp only [renderLineLoop, if_pos hft, hopen, if_neg e3, Int.toNat_ofNat, hclose, if_neg e4]
  simp only [Nat.cast_add, Nat.cast_one] at e1 e2
  simp only [Nat.cast_add, Nat.cast_one, e1, e2, if_neg e5]

/-- The last iteration of the loop of `renderLine` when no open marker is
found in a non-empty rest: the rest and a line terminator are written. -/
theorem renderLineLoop_rest (locals : Locals) (line : List Char) (to_ fuel from_ : Nat)
    (out : List Char) (hft : from_ < to_) (hfind : find line openMarker from_ to_ = -1) :
    renderLineLoop locals line to_ (fuel + 1) from_ out
      = .done (out ++ slice line from_ (to_ - from_) ++ ['\n']) := by
  simp [renderLineLoop, hft, hfind, renderTail]

/-- The loop of `renderLine` when nothing is left of the line: nothing is
written. -/
theorem renderLineLoop_end (locals : Locals) (line : List Char) (to_ fuel from_ : Nat)
    (out : List Char) (hft : to_ ≤ from_) :
    renderLineLoop locals line to_ (fuel + 1) from_ out = .done out := by
  have : ¬ from_ < to_ := by omega
  simp [renderLineLoop, this, renderTail]

/-- One iteration of the loop of `renderLine` over an open marker at `a`
without a close marker: the text before the marker is written and the call
returns. -/
theorem renderLineLoop_unterminated (locals : Locals) (line : List Char)
    (to_ fuel from_ a : Nat) (out : List Char) (hfa : from_ ≤ a) (hat : a + 2 ≤ to_)
    (hpre : ∀ i, from_ ≤ i → i < a → charAt line i ≠ '{')
    (ha0 : charAt line a = '{') (ha1 : charAt line (a + 1) = '{')
    (ha2 : a + 2 < to_ → charAt line (a + 2) ≠ NUL)
    (hclose : find line closeMarker (a + 2) to_ = -1) :
    renderLineLoop locals line to_ (fuel + 1) from_ out
      = .done (out ++ slice line from_ (a - from_)) := by
  have hopen : find line openMarker from_ to_ = ((a + 1 : Nat) : Int) :=
    find_hit line openMarker from_ to_ a hfa hat hpre ha0 ha1 ha2
  have hft : from_ < to_ := by omega
  have e1 : (((a + 1 : Nat) : Int) - (from_ : Int) - 1).toNat = a - from_ := by omega
  have e3 : ¬ (((a + 1 : Nat) : Int) < 1) := by omega
  simp only [renderLineLoop, if_pos hft, hopen, if_neg e3, Int.toNat_ofNat, hclose]
  simp only [Nat.cast_add, Nat.cast_one] at e1
  simp [e1]

theorem scanLine_stop (f : List Char) (n m pos : Nat) (hmn : m ≤ n)
    (h : ∀ k, k < m → charAt f (pos + k) ≠ '\n' ∧ charAt f (pos + k) ≠ NUL)
    (hstop : charAt f (pos + m) = '\n' ∨ charAt f (pos + m) = NUL) :
    scanLine f n pos = pos + m := by
  induction m generalizing n pos with
  | zero =>
    cases n with
    | zero => rfl
    | succ n =>
      rw [Nat.add_zero] at hstop
      have : ¬ (charAt f pos ≠ '\n' ∧ charAt f pos ≠ NUL) := by
        rcases hstop with h1 | h1 <;> simp [h1]
      simp [scanLine, this]
  | succ m ih =>
    cases n with
    | zero => omega
    | succ n =>
      have h0 := h 0 (by omega)
      rw [Nat.add_zero] at h0
      simp only [scanLine, h0, ne_eq, not_false_eq_true, and_self, if_true]
      rw [ih n (pos + 1) (by omega)
        (fun k hk => by
          have := h (k + 1) (by omega)
          rwa [show pos + (k + 1) = pos + 1 + k by omega] at this)
        (by rwa [show pos + (m + 1) = pos + 1 + m by omega] at hstop)]
      omega

/-- A buffer made of one line ended by a line feed: `renderFile` is one call
of `renderLine` on that line. -/
theorem renderFile_single_line (locals : Locals) (line : List Char)
    (h : ∀ c ∈ line, c ≠ '\n' ∧ c ≠ NUL) :
    renderFile locals (line ++ ['\n'])
      = renderLine locals (line ++ ['\n']) 0 line.length [] := by
  have hin : ∀ k, k < line.length → charAt (line ++ ['\n']) k ≠ '\n' ∧
      charAt (line ++ ['\n']) k ≠ NUL := by
    intro k hk
    rw [charAt_append_left _ _ _ hk]
    exact h _ (charAt_mem line k hk)
  have hnl : charAt (line ++ ['\n']) line.length = '\n' := by
    have := charAt_append_right line ['\n'] 0
    simpa using this
  have hstart : charAt (line ++ ['\n']) 0 ≠ NUL := by
    rcases Nat.eq_zero_or_pos line.length with h0 | h0
    · rw [← h0, hnl]
      decide
    · exact (hin 0 h0).2
  have hscan : scanLine (line ++ ['\n']) ((line ++ ['\n']).length - 0) 0 = line.length := by
    have := scanLine_stop (line ++ ['\n']) ((line ++ ['\n']).length - 0) line.length 0
      (by simp) (fun k hk => by simpa using hin k hk) (by simpa using Or.inl hnl)
    simpa using this
  have hend : charAt (line ++ ['\n']) (line.length + 1) = NUL :=
    charAt_length_le _ _ (by simp)
  have hne : ¬ (charAt (line ++ ['\n']) line.length = NUL) := by
    rw [hnl]
    decide
  simp only [renderFile, renderFileLoop, hstart, ne_eq, not_false_eq_true, if_true, hscan]
  cases hr : renderLine locals (line ++ ['\n']) 0 line.length [] with
  | done out1 =>
    simp only [hne, if_false]
    rw [show (line ++ ['\n']).length = (line.length + 1) by simp]
    simp [renderFileLoop, hend]
  | keyOverflow out1 n => rfl
  | fuelOut => rfl

theorem charAt_at (xs : List Char) (c : Char) (zs : List Char) (i : Nat)
    (hi : i = xs.length) : charAt (xs ++ c :: zs) i = c := by
  subst hi
  have := charAt_append_right xs (c :: zs) 0
  simpa [charAt] using this

theorem charAt_mid (xs ys zs : List Char) (i : Nat) (h1 : xs.length ≤ i)
    (h2 : i < xs.length + ys.length) : charAt (xs ++ (ys ++ zs)) i ∈ ys := by
  obtain ⟨k, rfl⟩ : ∃ k, i = xs.length + k := ⟨i - xs.length, by omega⟩
  rw [charAt_append_right, charAt_append_left _ _ _ (by omega)]
  exact charAt_mem ys k (by omega)

theorem slice_mid (xs ys zs : List Char) (i n : Nat) (hi : i = xs.length)
    (hn : n = ys.length) : slice (xs ++ (ys ++ zs)) i n = ys := by
  subst hi hn
  simp [slice]

theorem takeWhile_no_nul (key : List Char) (h : ∀ c ∈ key, c ≠ NUL) :
    key.takeWhile (fun c => c != NUL) = key := by
  rw [List.takeWhile_eq_self_iff]
  intro c hc
  simpa using h c hc

/-- A non-empty line without an open marker, not starting with an open brace
at buffer index 0, is written unchanged, followed by a line terminator. -/
theorem renderLine_no_marker (locals : Locals) (f : List Char) (start stop : Nat)
    (out : List Char) (hlt : start < stop)
    (hfirst : 1 ≤ start ∨ charAt f start ≠ '{')
    (hno : ∀ i, start ≤ i → i + 1 < stop → ¬ (charAt f i = '{' ∧ charAt f (i + 1) = '{')) :
    renderLine locals f start stop out
      = .done (out ++ slice f start (stop - start) ++ ['\n']) := by
  rw [renderLine]
  exact renderLineLoop_rest locals f stop _ start out hlt
    (find_no_pair f openMarker start stop hfirst hno)

/-- The loop of `renderFile` over the remaining lines of a buffer without open
marker: every line is written unchanged. -/
theorem renderFileLoop_no_marker (locals : Locals) (f : List Char) (lines : List (List Char))
    (done_ : List Char) (fuel : Nat) (out : List Char)
    (hf : f = done_ ++ (lines.map (fun l => l ++ ['\n'])).flatten)
    (hlines : ∀ l ∈ lines, l ≠ [] ∧ ∀ c ∈ l, c ≠ '\n' ∧ c ≠ NUL)
    (hno : ∀ i, ¬ (charAt f i = '{' ∧ charAt f (i + 1) = '{'))
    (hfirst : 1 ≤ done_.length ∨ charAt f 0 ≠ '{')
    (hfuel : f.length + 1 ≤ fuel + done_.length) :
    renderFileLoop locals f fuel done_.length out
      = .done (out ++ (lines.map (fun l => l ++ ['\n'])).flatten) := by
  induction lines generalizing done_ fuel out with
  | nil =>
    have hlen : f.length = done_.length := by simp [hf]
    obtain ⟨fuel, rfl⟩ : ∃ k, fuel = k + 1 := ⟨fuel - 1, by omega⟩
    have : charAt f done_.length = NUL := charAt_length_le _ _ (by omega)
    simp [renderFileLoop, this]
  | cons l ls ih =>
    have hl := hlines l (List.mem_cons_self _ _)
    have hlpos : 0 < l.length := List.length_pos.2 hl.1
    have hf2 : f = done_ ++ (l ++ (['\n'] ++ (ls.map (fun l => l ++ ['\n'])).flatten)) := by
      simp [hf]
    have hf3 : f = (done_ ++ l) ++ '\n' :: (ls.map (fun l => l ++ ['\n'])).flatten := by
      simp [hf]
    have hf4 : f = (done_ ++ l ++ ['\n']) ++ (ls.map (fun l => l ++ ['\n'])).flatten := by
      simp [hf]
    have hflen : done_.length + l.length + 1 ≤ f.length := by
      have := congrArg List.length hf4
      simp only [List.length_append, List.length_singleton] at this
      omega
    obtain ⟨fuel, rfl⟩ : ∃ k, fuel = k + 1 := ⟨fuel - 1, by omega⟩
    have hin : ∀ k, k < l.length → charAt f (done_.length + k) ≠ '\n' ∧
        charAt f (done_.length + k) ≠ NUL := by
      intro k hk
      have := charAt_mid done_ l (['\n'] ++ (ls.map (fun l => l ++ ['\n'])).flatten)
        (done_.length + k) (by omega) (by omega)
      rw [← hf2] at this
      exact hl.2 _ this
    have hnl : charAt f (done_.length + l.length) = '\n' := by
      rw [hf3]
      exact charAt_at _ _ _ _ (by simp)
    have hstart : charAt f done_.length ≠ NUL := (hin 0 hlpos).2
    have hscan : scanLine f (f.length - done_.length) done_.length
        = done_.length + l.length :=
      scanLine_stop f _ l.length done_.length (by omega) hin (Or.inl hnl)
    have hslice : slice f done_.length (done_.length + l.length - done_.length) = l := by
      rw [hf2]
      exact slice_mid _ _ _ _ _ rfl (by omega)
    have hline := renderLine_no_marker locals f done_.length (done_.length + l.length) out
      (by omega)
      (by
        rcases hfirst with h1 | h1
        · exact Or.inl h1
        · rcases Nat.eq_zero_or_pos done_.length with h0 | h0
          · exact Or.inr (by rwa [h0])
          · exact Or.inl h0)
      (fun i _ _ => hno i)
    have hne : ¬ (charAt f (done_.length + l.length) = NUL) := by
      rw [hnl]
      decide
    have hlen2 : (done_ ++ l ++ ['\n']).length = done_.length + l.length + 1 := by
      simp only [List.length_append, List.length_singleton]
    have hrec := ih (done_ ++ l ++ ['\n']) fuel (out ++ l ++ ['\n']) hf4
      (fun l2 h2 => hlines l2 (List.mem_cons_of_mem _ h2)) (Or.inl (by omega))
      (by omega)
    rw [hlen2] at hrec
    simp only [renderFileLoop, hstart, ne_eq, not_false_eq_true, if_true, hscan, hline, hslice,
      hne, if_false, hrec]
    simp

/-- A buffer of non-empty lines, each ended by a line feed, that has no open
marker in it and does not begin with an open brace is written unchanged. -/
theorem renderFile_no_marker (locals : Locals) (lines : List (List Char))
    (hlines : ∀ l ∈ lines, l ≠ [] ∧ ∀ c ∈ l, c ≠ '\n' ∧ c ≠ NUL)
    (hno : ¬ openMarker <:+: (lines.map (fun l => l ++ ['\n'])).flatten)
    (hfirst : (lines.map (fun l => l ++ ['\n'])).flatten.head? ≠ some '{') :
    renderFile locals (lines.map (fun l => l ++ ['\n'])).flatten
      = .done (lines.map (fun l => l ++ ['\n'])).flatten := by
  generalize hf : (lines.map (fun l => l ++ ['\n'])).flatten = f at hno hfirst
  have h0 : charAt f 0 ≠ '{' := by
    cases f with
    | nil => decide
    | cons c t =>
      intro h
      exact hfirst (by simpa [charAt] using h)
  have := renderFileLoop_no_marker locals f lines [] (f.length + 1) [] (by simp [hf]) hlines
    (fun i h => by
      by_cases hi : i + 1 < f.length
      · exact hno (infix_of_charAt _ _ f i hi h.1 h.2)
      · have := charAt_length_le f (i + 1) (by omega)
        rw [this] at h
        exact absurd h.2 (by decide))
    (Or.inr h0) (by simp)
  rw [renderFile]
  simpa [hf] using this

theorem renderTail_ne_fuelOut (line : List Char) (from_ to_ : Nat) (out : List Char) :
    renderTail line from_ to_ out ≠ .fuelOut := by
  simp only [renderTail]
  split <;> simp

/-- The loop of `renderLine` does not reach the iteration bound when the bound
is at least 1 and at least `to - from`: every iteration that goes on moves
`from` beyond the close marker it found. -/
theorem renderLineLoop_ne_fuelOut (locals : Locals) (line : List Char) (to_ : Nat)
    (fuel from_ : Nat) (out : List Char) (h1 : 1 ≤ fuel) (h2 : to_ - from_ ≤ fuel) :
    renderLineLoop locals line to_ fuel from_ out ≠ .fuelOut := by
  induction fuel generalizing from_ out with
  | zero => omega
  | succ fuel ih =>
    simp only [renderLineLoop]
    by_cases hft : from_ < to_
    · rw [if_pos hft]
      rcases find_bounds line openMarker from_ to_ with h | ⟨w, hw, hw1, hw2, _⟩
      · rw [h]
        simpa using renderTail_ne_fuelOut line from_ to_ out
      · rw [hw]
        have e1 : ¬ ((w : Int) < 1) := by omega
        rw [if_neg e1]
        simp only [Int.toNat_ofNat]
        rcases find_bounds line closeMarker (w + 1) to_ with g | ⟨v, hv, hv1, hv2, _⟩
        · rw [g]
          simp
        · rw [hv]
          have e2 : ¬ ((v : Int) < 1) := by omega
          rw [if_neg e2]
          split
          · simp
          · simp only [Int.toNat_ofNat]
            exact ih (v + 1) _ (by omega) (by omega)
    · rw [if_neg hft]
      exact renderTail_ne_fuelOut line from_ to_ out

theorem renderLine_ne_fuelOut (locals : Locals) (line : List Char) (from_ to_ : Nat)
    (out : List Char) : renderLine locals line from_ to_ out ≠ .fuelOut :=
  renderLineLoop_ne_fuelOut locals line to_ _ from_ out (by omega) (by omega)

theorem scanLine_ge (f : List Char) (n pos : Nat) : pos ≤ scanLine f n pos := by
  induction n generalizing pos with
  | zero => simp [scanLine]
  | succ n ih =>
    simp only [scanLine]
    split
    · exact Nat.le_trans (Nat.le_succ pos) (ih (pos + 1))
    · exact Nat.le_refl pos

/-- The loop of `renderFile` does not reach the iteration bound when the bound
is at least 1 and at least `f.length + 1 - start`. -/
theorem renderFileLoop_ne_fuelOut (locals : Locals) (f : List Char) (fuel start : Nat)
    (out : List Char) (h1 : 1 ≤ fuel) (h : f.length + 1 ≤ fuel + start) :
    renderFileLoop locals f fuel start out ≠ .fuelOut := by
  induction fuel generalizing start out with
  | zero => omega
  | succ fuel ih =>
    simp only [renderFileLoop]
    by_cases hs : charAt f start = NUL
    · simp [hs]
    · have hlt : start < f.length := by
        by_contra hge
        exact hs (charAt_length_le f start (by omega))
      simp only [ne_eq, hs, not_false_eq_true, if_true]
      have hge := scanLine_ge f (f.length - start) start
      cases hr : renderLine locals f start (scanLine f (f.length - start) start) out with
      | done out1 =>
        simp only
        split
        · simp
        · exact ih _ _ (by omega) (by omega)
      | keyOverflow out1 n => simp
      | fuelOut => exact absurd hr (renderLine_ne_fuelOut locals f _ _ out)

/-- The loop of `renderLine` over a rest of line made of terminated markers
and a non-empty final text: every marker is replaced by the value of its
key. -/
theorem renderLineLoop_markers (locals : Locals) (f post : List Char)
    (ms : List (List Char × List Char)) (done_ : List Char) (to_ fuel : Nat) (out : List Char)
    (hf : f = done_ ++ (markerLine ms ++ (post ++ ['\n'])))
    (hto : to_ = done_.length + (markerLine ms).length + post.length)
    (hms : ∀ m ∈ ms, (∀ c ∈ m.1, c ≠ '{') ∧ (∀ c ∈ m.2, c ≠ '}' ∧ c ≠ NUL) ∧
      m.2.length ≤ 14)
    (hpost : ∀ c ∈ post, c ≠ '{') (hpost0 : post ≠ [])
    (hnul : ∀ i, i < to_ → charAt f i ≠ NUL)
    (hfuel : ms.length + 1 ≤ fuel) :
    renderLineLoop locals f to_ fuel done_.length out
      = .done (out ++ markerLineValue locals ms ++ post ++ ['\n']) := by
  induction ms generalizing done_ fuel out with
  | nil =>
    obtain ⟨fuel, rfl⟩ : ∃ k, fuel = k + 1 := ⟨fuel - 1, by omega⟩
    have hpl : 0 < post.length := List.length_pos.2 hpost0
    simp only [markerLine, List.map_nil, List.flatten_nil, List.nil_append,
      List.length_nil, Nat.add_zero] at hf hto
    have hq : ∀ i, done_.length ≤ i → i < to_ → charAt f i ≠ '{' := by
      intro i h1 h2
      have := charAt_mid done_ post ['\n'] i h1 (by omega)
      rw [← hf] at this
      exact hpost _ this
    have hs : slice f done_.length (to_ - done_.length) = post := by
      rw [hf]
      exact slice_mid _ _ _ _ _ rfl (by omega)
    rw [renderLineLoop_rest locals f to_ fuel done_.length out (by omega)
      (find_absent f openMarker _ _ hq), hs]
    simp [markerLineValue]
  | cons m rest ih =>
    obtain ⟨fuel, rfl⟩ : ∃ k, fuel = k + 1 := ⟨fuel - 1, by omega⟩
    obtain ⟨hm1, hm2, hm3⟩ := hms m (List.mem_cons_self _ _)
    have hmc : markerLine (m :: rest)
        = m.1 ++ openMarker ++ m.2 ++ closeMarker ++ markerLine rest := by
      simp [markerLine]
    have hml : (markerLine (m :: rest)).length
        = m.1.length + 2 + m.2.length + 2 + (markerLine rest).length := by
      rw [hmc]
      simp only [List.length_append, openMarker, closeMarker, List.length_cons,
        List.length_nil]
    obtain ⟨T, hT⟩ : ∃ T, markerLine rest ++ (post ++ ['\n']) = T := ⟨_, rfl⟩
    have g0 : f = done_ ++ (m.1 ++ ('{' :: '{' :: (m.2 ++ '}' :: '}' :: T))) := by
      simp [hf, ← hT, hmc, openMarker, closeMarker]
    have g1 : f = (done_ ++ m.1) ++ '{' :: ('{' :: (m.2 ++ '}' :: '}' :: T)) := by
      simp [g0]
    have g2 : f = (done_ ++ m.1 ++ ['{']) ++ '{' :: (m.2 ++ '}' :: '}' :: T) := by
      simp [g0]
    have g3 : f = (done_ ++ m.1 ++ ['{', '{']) ++ (m.2 ++ ('}' :: '}' :: T)) := by
      simp [g0]
    have g4 : f = (done_ ++ m.1 ++ ['{', '{'] ++ m.2) ++ '}' :: ('}' :: T) := by
      simp [g0]
    have g5 : f = (done_ ++ m.1 ++ ['{', '{'] ++ m.2 ++ ['}']) ++ '}' :: T := by
      simp [g0]
    have g6 : f = (done_ ++ m.1 ++ ['{', '{'] ++ m.2 ++ ['}', '}'])
        ++ (markerLine rest ++ (post ++ ['\n'])) := by
      simp [g0, ← hT]
    have l1 : (done_ ++ m.1).length = done_.length + m.1.length := by simp
    have l2 : (done_ ++ m.1 ++ ['{']).length = done_.length + m.1.length + 1 := by
      rw [List.length_append, l1]
      rfl
    have l3 : (done_ ++ m.1 ++ ['{', '{']).length = done_.length + m.1.length + 2 := by
      rw [List.length_append, l1]
      rfl
    have l4 : (done_ ++ m.1 ++ ['{', '{'] ++ m.2).length
        = done_.length + m.1.length + 2 + m.2.length := by
      rw [List.length_append, l3]
    have l5 : (done_ ++ m.1 ++ ['{', '{'] ++ m.2 ++ ['}']).length
        = done_.length + m.1.length + 2 + m.2.length + 1 := by
      rw [List.length_append, l4]
      rfl
    have l6 : (done_ ++ m.1 ++ ['{', '{'] ++ m.2 ++ ['}', '}']).length
        = done_.length + m.1.length + 2 + m.2.length + 2 := by
      rw [List.length_append, l4]
      rfl
    have hp : ∀ i, done_.length ≤ i → i < done_.length + m.1.length → charAt f i ≠ '{' := by
      intro i h1 h2
      have := charAt_mid done_ m.1 ('{' :: '{' :: (m.2 ++ '}' :: '}' :: T)) i h1 h2
      rw [← g0] at this
      exact hm1 _ this
    have ha0 : charAt f (done_.length + m.1.length) = '{' := by
      rw [g1]
      exact charAt_at _ _ _ _ (by omega)
    have ha1 : charAt f (done_.length + m.1.length + 1) = '{' := by
      rw [g2]
      exact charAt_at _ _ _ _ (by omega)
    have hk : ∀ i, done_.length + m.1.length + 2 ≤ i →
        i < done_.length + m.1.length + 2 + m.2.length → charAt f i ≠ '}' := by
      intro i h1 h2
      have := charAt_mid (done_ ++ m.1 ++ ['{', '{']) m.2 ('}' :: '}' :: T) i
        (by omega) (by omega)
      rw [← g3] at this
      exact (hm2 _ this).1
    have hb0 : charAt f (done_.length + m.1.length + 2 + m.2.length) = '}' := by
      rw [g4]
      exact charAt_at _ _ _ _ (by omega)
    have hb1 : charAt f (done_.length + m.1.length + 2 + m.2.length + 1) = '}' := by
      rw [g5]
      exact charAt_at _ _ _ _ (by omega)
    have s1 : slice f done_.length (done_.length + m.1.length - done_.length) = m.1 := by
      rw [g0]
      exact slice_mid _ _ _ _ _ rfl (by omega)
    have s2 : slice f (done_.length + m.1.length + 2)
        (done_.length + m.1.length + 2 + m.2.length - (done_.length + m.1.length + 2))
        = m.2 := by
      rw [g3]
      exact slice_mid _ _ _ _ _ (by omega) (by omega)
    have hstep := renderLineLoop_marker locals f to_ fuel done_.length
      (done_.length + m.1.length) (done_.length + m.1.length + 2 + m.2.length) out
      (by omega) (by omega) (by omega) hp ha0 ha1 (hnul _ (by omega)) hk hb0 hb1
      (fun h => hnul _ h) (by simp only [keyCapacity]; omega)
    rw [s1, s2, takeWhile_no_nul m.2 (fun c hc => (hm2 c hc).2)] at hstep
    have hrec := ih (done_ ++ m.1 ++ ['{', '{'] ++ m.2 ++ ['}', '}']) fuel
      (out ++ m.1 ++ locals.lookup m.2) g6 (by omega)
      (fun m2 h2 => hms m2 (List.mem_cons_of_mem _ h2)) (by simpa using hfuel)
    rw [l6] at hrec
    rw [hstep, hrec]
    simp [markerLineValue]

theorem markerLine_length_ge (ms : List (List Char × List Char)) :
    ms.length ≤ (markerLine ms).length := by
  induction ms with
  | nil => simp [markerLine]
  | cons m rest ih =>
    have hmc : markerLine (m :: rest)
        = m.1 ++ openMarker ++ m.2 ++ closeMarker ++ markerLine rest := by
      simp [markerLine]
    rw [hmc]
    simp only [List.length_append, openMarker, closeMarker, List.length_cons, List.length_nil]
    omega

theorem mem_markerLine (ms : List (List Char × List Char)) (c : Char)
    (h : c ∈ markerLine ms) :
    c = '{' ∨ c = '}' ∨ ∃ m ∈ ms, c ∈ m.1 ∨ c ∈ m.2 := by
  simp only [markerLine, List.mem_flatten, List.mem_map] at h
  obtain ⟨l, ⟨m, hm, rfl⟩, hc⟩ := h
  simp only [List.mem_append, openMarker, closeMarker, List.mem_cons, List.mem_singleton,
    List.not_mem_nil, or_false] at hc
  rcases hc with ((h1 | h1) | h1) | h1
  · exact Or.inr (Or.inr ⟨m, hm, Or.inl h1⟩)
  · exact Or.inl (by rcases h1 with h | h <;> exact h)
  · exact Or.inr (Or.inr ⟨m, hm, Or.inr h1⟩)
  · exact Or.inr (Or.inl (by rcases h1 with h | h <;> exact h))

theorem slice_append_left (xs ys : List Char) (a n : Nat) (h : a + n ≤ xs.length) :
    slice (xs ++ ys) a n = slice xs a n := by
  simp only [slice]
  rw [List.drop_append_of_le_length (by omega), List.take_append_of_le_length (by simp; omega)]

/-- The loop of `renderLine` reads the buffer inside `[from, to)` only: bytes
appended after `to` change nothing. -/
theorem renderLineLoop_append (locals : Locals) (f ys : List Char) (to_ fuel from_ : Nat)
    (out : List Char) (hto : to_ ≤ f.length) :
    renderLineLoop locals (f ++ ys) to_ fuel from_ out
      = renderLineLoop locals f to_ fuel from_ out := by
  have hc : ∀ (ss : List Char) (a : Nat), find (f ++ ys) ss a to_ = find f ss a to_ :=
    fun ss a => find_congr _ _ ss a to_
      (fun k _ h2 => charAt_append_left f ys k (by omega))
  have em : ((-1 : Int) < 1) := by decide
  induction fuel generalizing from_ out with
  | zero => rfl
  | succ fuel ih =>
    simp only [renderLineLoop, hc]
    by_cases hft : from_ < to_
    · simp only [if_pos hft]
      rcases find_bounds f openMarker from_ to_ with h | ⟨w, hw, hw1, hw2, _⟩
      · rw [h]
        simp only [renderTail, if_pos hft, if_pos em]
        rw [slice_append_left f ys _ _ (by omega)]
      · rw [hw]
        have e1 : ¬ ((w : Int) < 1) := by omega
        simp only [if_neg e1, Int.toNat_ofNat]
        rw [slice_append_left f ys _ _ (by omega)]
        rcases find_bounds f closeMarker (w + 1) to_ with g | ⟨v, hv, hv1, hv2, _⟩
        · rw [g]
          simp only [if_pos em]
        · rw [hv]
          have e2 : ¬ ((v : Int) < 1) := by omega
          simp only [if_neg e2, Int.toNat_ofNat]
          rw [slice_append_left f ys _ _ (by omega), ih]
    · simp only [if_neg hft, renderTail]

theorem scanLine_le (f : List Char) (n pos : Nat) : scanLine f n pos ≤ pos + n := by
  induction n generalizing pos with
  | zero => simp [scanLine]
  | succ n ih =>
    simp only [scanLine]
    split
    · have := ih (pos + 1)
      omega
    · omega

theorem scanLine_before (f : List Char) (n pos k : Nat) (h1 : pos ≤ k)
    (h2 : k < scanLine f n pos) : charAt f k ≠ '\n' ∧ charAt f k ≠ NUL := by
  induction n generalizing pos with
  | zero =>
    simp only [scanLine] at h2
    omega
  | succ n ih =>
    simp only [scanLine] at h2
    split at h2
    · rename_i hc
      rcases Nat.eq_or_lt_of_le h1 with h | h
      · rw [← h]
        exact hc
      · exact ih (pos + 1) (by omega) h2
    · omega

theorem scanLine_at (f : List Char) (n pos : Nat) (h : scanLine f n pos < pos + n) :
    charAt f (scanLine f n pos) = '\n' ∨ charAt f (scanLine f n pos) = NUL := by
  induction n generalizing pos with
  | zero =>
    simp only [scanLine] at h
    omega
  | succ n ih =>
    simp only [scanLine] at h ⊢
    split
    · rename_i hc
      rw [if_pos hc] at h
      exact ih (pos + 1) (by omega)
    · rename_i hc
      by_cases h1 : charAt f pos = '\n'
      · exact Or.inl h1
      · by_cases h2 : charAt f pos = NUL
        · exact Or.inr h2
        · exact absurd ⟨h1, h2⟩ hc

/-- The loop of `renderFile` on a buffer and on the same buffer with one more
line feed at its end: the outcome is the same. -/
theorem renderFileLoop_append_newline (locals : Locals) (f : List Char)
    (fuel fuel2 start : Nat) (out : List Char) (hs : start ≤ f.length) (h1 : 1 ≤ fuel)
    (h2 : f.length + 1 ≤ fuel + start) (h3 : fuel + 1 ≤ fuel2) :
    renderFileLoop locals (f ++ ['\n']) fuel2 start out
      = renderFileLoop locals f fuel start out := by
  induction fuel generalizing fuel2 start out with
  | zero => omega
  | succ fuel ih =>
    obtain ⟨fuel2, rfl⟩ : ∃ k, fuel2 = k + 1 := ⟨fuel2 - 1, by omega⟩
    have hsame : ∀ k, k < f.length → charAt (f ++ ['\n']) k = charAt f k :=
      fun k hk => charAt_append_left f ['\n'] k hk
    have hlast : charAt (f ++ ['\n']) f.length = '\n' := charAt_at f '\n' [] _ rfl
    have hend : charAt (f ++ ['\n']) (f.length + 1) = NUL :=
      charAt_length_le _ _ (by simp)
    have hfend : charAt f f.length = NUL := charAt_length_le _ _ (Nat.le_refl _)
    have hnl : ¬ ('\n' = NUL) := by decide
    rcases Nat.eq_or_lt_of_le hs with heq | hlt
    · -- the buffer ends here: the longer buffer has one more, empty, line
      obtain ⟨fuel3, rfl⟩ : ∃ k, fuel2 = k + 1 := ⟨fuel2 - 1, by omega⟩
      subst heq
      have hscan : scanLine (f ++ ['\n']) ((f ++ ['\n']).length - f.length) f.length
          = f.length := by
        have := scanLine_stop (f ++ ['\n']) ((f ++ ['\n']).length - f.length) 0 f.length
          (by omega) (fun k hk => by omega) (Or.inl (by simpa using hlast))
        simpa using this
      simp only [renderFileLoop, hlast, hfend, ne_eq, hnl, not_false_eq_true, if_true, hscan,
        not_true_eq_false, if_false]
      simp [renderLine, renderLineLoop, renderTail, hend]
    · have hstart : charAt (f ++ ['\n']) start = charAt f start := hsame start hlt
      by_cases hz : charAt f start = NUL
      · simp [renderFileLoop, hstart, hz]
      · have hle := scanLine_le f (f.length - start) start
        have hge := scanLine_ge f (f.length - start) start
        have hstopf : charAt f (scanLine f (f.length - start) start) = '\n' ∨
            charAt f (scanLine f (f.length - start) start) = NUL := by
          rcases Nat.eq_or_lt_of_le hle with h | h
          · rw [h, show start + (f.length - start) = f.length by omega]
            exact Or.inr hfend
          · exact scanLine_at f _ start h
        have hscan : scanLine (f ++ ['\n']) ((f ++ ['\n']).length - start) start
            = scanLine f (f.length - start) start := by
          have hlen : (f ++ ['\n']).length = f.length + 1 := by simp
          have := scanLine_stop (f ++ ['\n']) ((f ++ ['\n']).length - start)
            (scanLine f (f.length - start) start - start) start (by omega)
            (fun k hk => by
              rw [hsame _ (by omega)]
              exact scanLine_before f (f.length - start) start (start + k) (by omega)
                (by omega))
            (by
              rw [show start + (scanLine f (f.length - start) start - start)
                = scanLine f (f.length - start) start by omega]
              rcases Nat.eq_or_lt_of_le hle with h | h
              · rw [h, show start + (f.length - start) = f.length by omega]
                exact Or.inl hlast
              · rw [hsame _ (by omega)]
                exact hstopf)
          rw [this]
          omega
        simp only [renderFileLoop, hstart, hz, ne_eq, not_false_eq_true, if_true, hscan]
        generalize hstop : scanLine f (f.length - start) start = stop at hle hge hstopf
        have hline : renderLine locals (f ++ ['\n']) start stop out
            = renderLine locals f start stop out := by
          simp only [renderLine]
          exact renderLineLoop_append locals f ['\n'] stop _ start out (by omega)
        rw [hline]
        cases hr : renderLine locals f start stop out with
        | done out1 =>
          simp only
          rcases Nat.eq_or_lt_of_le (show stop ≤ f.length by omega) with h | h
          · subst h
            obtain ⟨fuel3, rfl⟩ : ∃ k, fuel2 = k + 1 := ⟨fuel2 - 1, by omega⟩
            simp [hlast, hfend, hnl, renderFileLoop, hend]
          · rw [hsame stop h]
            by_cases hn : charAt f stop = NUL
            · simp [hn]
            · simp only [hn, if_false]
              exact ih fuel2 (stop + 1) out1 (by omega) (by omega) (by omega) (by omega)
        | keyOverflow out1 n => rfl
        | fuelOut => rfl

/-! Path segmenter: lemmas -/

theorem tiles_snoc (a b c : Nat) (v : List PosLen) (h : Tiles a v b) (hbc : b < c) :
    Tiles a (v ++ [⟨b, c - b⟩]) c := by
  induction v generalizing a with
  | nil =>
    simp only [Tiles] at h
    subst h
    exact ⟨rfl, by show 1 ≤ c - a; omega, by show a + (c - a) = c; omega⟩
  | cons d v ih =>
    obtain ⟨h1, h2, h3⟩ := h
    exact ⟨h1, h2, ih _ h3⟩

theorem splitLoop_append (path : List Char) (n p i : Nat) (v : List PosLen) :
    splitLoop path n p i v = v ++ splitLoop path n p i [] := by
  induction n generalizing p i v with
  | zero => simp [splitLoop]
  | succ n ih =>
    simp only [splitLoop]
    split
    · rw [ih i (i + 1) (v ++ _), ih i (i + 1) ([] ++ _)]
      simp
    · exact ih p (i + 1) v

theorem splitLoop_tiles (path : List Char) (n p i : Nat) (v : List PosLen)
    (h : Tiles 0 v p) (hpi : p < i) : Tiles 0 (splitLoop path n p i v) (i + n) := by
  induction n generalizing p i v with
  | zero => simpa [splitLoop] using tiles_snoc 0 p i v h hpi
  | succ n ih =>
    simp only [splitLoop]
    split
    · have := ih i (i + 1) _ (tiles_snoc 0 p i v h hpi) (by omega)
      rwa [show i + (n + 1) = i + 1 + n by omega]
    · have := ih p (i + 1) v h (by omega)
      rwa [show i + (n + 1) = i + 1 + n by omega]

theorem tiles_flatten (s : List Char) (a b : Nat) (v : List PosLen) (h : Tiles a v b) :
    a ≤ b ∧ (v.map (segment s)).flatten = slice s a (b - a) := by
  induction v generalizing a with
  | nil =>
    simp only [Tiles] at h
    subst h
    simp [slice]
  | cons d v ih =>
    obtain ⟨h1, h2, h3⟩ := h
    obtain ⟨ih1, ih2⟩ := ih _ h3
    refine ⟨by omega, ?_⟩
    simp only [List.map_cons, List.flatten_cons, ih2, segment, slice, h1]
    have e : b - a = d.len + (b - (a + d.len)) := by omega
    rw [e, List.take_add, List.drop_drop]

theorem tiles_props (a b : Nat) (v : List PosLen) (h : Tiles a v b) :
    (∀ d ∈ v, 1 ≤ d.len ∧ a ≤ d.pos ∧ d.pos + d.len ≤ b) ∧
    (∀ i (h1 : i + 1 < v.length),
      (v.get ⟨i + 1, h1⟩).pos = (v.get ⟨i, by omega⟩).pos + (v.get ⟨i, by omega⟩).len) ∧
    (∀ d, v.head? = some d → d.pos = a) ∧
    (∀ d, v.getLast? = some d → d.pos + d.len = b) := by
  induction v generalizing a with
  | nil => simp
  | cons d v ih =>
    obtain ⟨h1, h2, h3⟩ := h
    obtain ⟨i1, i2, i3, i4⟩ := ih _ h3
    have hle := (tiles_flatten [] _ _ _ h3).1
    refine ⟨?_, ?_, ?_, ?_⟩
    · intro e he
      rcases List.mem_cons.1 he with rfl | he
      · exact ⟨h2, by omega, by omega⟩
      · have := i1 e he
        omega
    · intro i hi
      cases i with
      | zero =>
        cases v with
        | nil => simp at hi
        | cons e v =>
          have := i3 e rfl
          simpa [h1] using this
      | succ i => simpa using i2 i (by simpa using hi)
    · intro e he
      simp only [List.head?_cons, Option.some.injEq] at he
      exact he ▸ h1
    · intro e he
      cases v with
      | nil =>
        simp only [List.getLast?_singleton, Option.some.injEq] at he
        simp only [Tiles] at h3
        subst he
        omega
      | cons e2 v =>
        rw [List.getLast?_cons_cons] at he
        exact i4 e he

theorem splitLoop_length (path : List Char) (n p i : Nat) (v : List PosLen) :
    (splitLoop path n p i v).length
      = v.length + 1 + ((path.drop i).take n).count delimiter := by
  induction n generalizing p i v with
  | zero => simp [splitLoop]
  | succ n ih =>
    simp only [splitLoop]
    rcases Nat.lt_or_ge i path.length with hi | hi
    · have hd : path.drop i = charAt path i :: path.drop (i + 1) := by
        rw [charAt, List.getD_eq_getElem _ _ hi]
        exact List.drop_eq_getElem_cons hi
      rw [hd, List.take_succ_cons]
      split
      · rename_i hc
        rw [ih, hc, List.count_cons_self]
        simp only [List.length_append, List.length_singleton]
        omega
      · rename_i hc
        rw [ih, List.count_cons_of_ne (fun e => hc e.symm)]
    · have hc : charAt path i ≠ delimiter := by
        rw [charAt, List.getD_eq_default _ _ hi]
        decide
      rw [if_neg hc, ih, List.drop_eq_nil_of_le hi, List.drop_eq_nil_of_le (by omega)]
      simp

theorem splitToVector_tiles (p : List Char) (hp : p ≠ []) :
    Tiles 0 (splitToVector p []) p.length := by
  have hlen : 0 < p.length := List.length_pos.2 hp
  have := splitLoop_tiles p (p.length - 1) 0 1 [] rfl (by omega)
  rwa [show 1 + (p.length - 1) = p.length by omega] at this

theorem splitToVector_ne_nil (p : List Char) (v : List PosLen) : splitToVector p v ≠ [] := by
  intro h
  have := congrArg List.length h
  rw [splitToVector, splitLoop_length] at this
  simp at this

theorem sepOk_snoc (path : List Char) (p i : Nat) (v : List PosLen)
    (hv : ∀ d ∈ v, SepOk path d) (hp : p = 0 ∨ charAt path p = delimiter)
    (hmid : ∀ k, p < k → k < i → charAt path k ≠ delimiter) :
    ∀ d ∈ v ++ [⟨p, i - p⟩], SepOk path d := by
  intro d hd
  rcases List.mem_append.1 hd with h | h
  · exact hv d h
  · rw [List.mem_singleton.1 h]
    refine ⟨hp, ?_⟩
    intro k (h1 : p < k) (h2 : k < p + (i - p))
    exact hmid k h1 (by omega)

theorem splitLoop_sepOk (path : List Char) (n p i : Nat) (v : List PosLen)
    (hv : ∀ d ∈ v, SepOk path d) (hp : p = 0 ∨ charAt path p = delimiter)
    (hpi : p < i) (hmid : ∀ k, p < k → k < i → charAt path k ≠ delimiter) :
    ∀ d ∈ splitLoop path n p i v, SepOk path d := by
  induction n generalizing p i v with
  | zero => simpa [splitLoop] using sepOk_snoc path p i v hv hp hmid
  | succ n ih =>
    simp only [splitLoop]
    split
    · rename_i hc
      exact ih i (i + 1) _ (sepOk_snoc path p i v hv hp hmid) (Or.inr hc) (by omega)
        (fun k h1 h2 => by omega)
    · rename_i hc
      refine ih p (i + 1) v hv hp (by omega) ?_
      intro k h1 h2
      rcases Nat.eq_or_lt_of_le (Nat.le_of_lt_succ h2) with h | h
      · rw [h]
        exact hc
      · exact hmid k h1 h

theorem tiles_pos_of_index (a b : Nat) (v : List PosLen) (h : Tiles a v b) (i : Nat)
    (d : PosLen) (hi : 1 ≤ i) (hd : v[i]? = some d) : a < d.pos := by
  induction v generalizing a i with
  | nil => simp at hd
  | cons e v ih =>
    obtain ⟨h1, h2, h3⟩ := h
    obtain ⟨j, rfl⟩ : ∃ j, i = j + 1 := ⟨i - 1, by omega⟩
    simp only [List.getElem?_cons_succ] at hd
    cases j with
    | zero =>
      cases v with
      | nil => simp at hd
      | cons e2 v =>
        simp only [List.getElem?_cons_zero, Option.some.injEq] at hd
        subst hd
        have := h3.1
        omega
    | succ j =>
      have := ih (a + e.len) h3 (j + 1) (by omega) hd
      omega

/-! Template renderer: the claims -/

/-- C1: for literal texts `pre` and `post` free of the characters open brace,
close brace, line feed and NUL, `post` non-empty, and a key of at most 14
such characters, rendering the buffer `pre ++ "{{" ++ key ++ "}}" ++ post ++
"\n"` writes exactly `pre ++ v ++ post ++ "\n"`, where `v` is the value
`locals` holds for `key` (empty when the key is absent); `v` is arbitrary and
is written as it is. -/
theorem renderFile_single_marker (locals : Locals) (pre key post : List Char)
    (hpre : ∀ c ∈ pre, c ≠ '{' ∧ c ≠ '}' ∧ c ≠ '\n' ∧ c ≠ NUL)
    (hpost : ∀ c ∈ post, c ≠ '{' ∧ c ≠ '}' ∧ c ≠ '\n' ∧ c ≠ NUL)
    (hpost0 : post ≠ [])
    (hkey : ∀ c ∈ key, c ≠ '{' ∧ c ≠ '}' ∧ c ≠ '\n' ∧ c ≠ NUL)
    (hlen : key.length ≤ 14) :
    renderFile locals (pre ++ openMarker ++ key ++ closeMarker ++ post ++ ['\n'])
      = .done (pre ++ locals.lookup key ++ post ++ ['\n']) := by
  have hpl : 0 < post.length := List.length_pos.2 hpost0
  have hline : ∀ c ∈ pre ++ openMarker ++ key ++ closeMarker ++ post, c ≠ '\n' ∧ c ≠ NUL := by
    intro c hc
    simp only [List.mem_append, openMarker, closeMarker] at hc
    rcases hc with (((hc | hc) | hc) | hc) | hc
    · exact (hpre c hc).2.2
    · have : c = '{' := by simpa using hc
      subst this
      decide
    · exact (hkey c hc).2.2
    · have : c = '}' := by simpa using hc
      subst this
      decide
    · exact (hpost c hc).2.2
  rw [renderFile_single_line locals _ hline, renderLine]
  generalize hf : pre ++ openMarker ++ key ++ closeMarker ++ post ++ ['\n'] = f
  have f1 : f = pre ++ '{' :: ('{' :: (key ++ '}' :: '}' :: (post ++ ['\n']))) := by
    simp [← hf, openMarker, closeMarker]
  have f2 : f = (pre ++ ['{']) ++ '{' :: (key ++ '}' :: '}' :: (post ++ ['\n'])) := by
    simp [← hf, openMarker, closeMarker]
  have f3 : f = (pre ++ ['{', '{']) ++ (key ++ '}' :: '}' :: (post ++ ['\n'])) := by
    simp [← hf, openMarker, closeMarker]
  have f4 : f = (pre ++ ['{', '{'] ++ key) ++ '}' :: ('}' :: (post ++ ['\n'])) := by
    simp [← hf, openMarker, closeMarker]
  have f5 : f = (pre ++ ['{', '{'] ++ key ++ ['}']) ++ '}' :: (post ++ ['\n']) := by
    simp [← hf, openMarker, closeMarker]
  have f6 : f = (pre ++ ['{', '{'] ++ key ++ ['}', '}']) ++ (post ++ ['\n']) := by
    simp [← hf, openMarker, closeMarker]
  have f0 : f = [] ++ (pre ++ '{' :: ('{' :: (key ++ '}' :: '}' :: (post ++ ['\n'])))) := by
    simp [← hf, openMarker, closeMarker]
  have htot : (pre ++ openMarker ++ key ++ closeMarker ++ post).length
      = pre.length + key.length + post.length + 4 := by
    simp [openMarker, closeMarker]
    omega
  rw [htot]
  have l2 : (pre ++ ['{']).length = pre.length + 1 := by simp
  have l3 : (pre ++ ['{', '{']).length = pre.length + 2 := by simp
  have l4 : (pre ++ ['{', '{'] ++ key).length = pre.length + 2 + key.length := by
    rw [List.length_append, l3]
  have l5 : (pre ++ ['{', '{'] ++ key ++ ['}']).length = pre.length + 2 + key.length + 1 := by
    rw [List.length_append, l4]
    rfl
  have l6 : (pre ++ ['{', '{'] ++ key ++ ['}', '}']).length
      = pre.length + 2 + key.length + 2 := by
    rw [List.length_append, l4]
    rfl
  have hp : ∀ i, 0 ≤ i → i < pre.length → charAt f i ≠ '{' := by
    intro i _ hi
    have := charAt_mid [] pre ('{' :: ('{' :: (key ++ '}' :: '}' :: (post ++ ['\n'])))) i
      (by simp) (by simpa using hi)
    rw [← f0] at this
    exact (hpre _ this).1
  have ha0 : charAt f pre.length = '{' := by
    rw [f1]
    exact charAt_at _ _ _ _ rfl
  have ha1 : charAt f (pre.length + 1) = '{' := by
    rw [f2]
    exact charAt_at _ _ _ _ (by omega)
  have hk : ∀ i, pre.length + 2 ≤ i → i < pre.length + 2 + key.length →
      charAt f i ≠ '}' ∧ charAt f i ≠ NUL := by
    intro i h1 h2
    have := charAt_mid (pre ++ ['{', '{']) key ('}' :: '}' :: (post ++ ['\n'])) i
      (by omega)
      (by omega)
    rw [← f3] at this
    exact ⟨(hkey _ this).2.1, (hkey _ this).2.2.2⟩
  have hb0 : charAt f (pre.length + 2 + key.length) = '}' := by
    rw [f4]
    exact charAt_at _ _ _ _ (by omega)
  have hb1 : charAt f (pre.length + 2 + key.length + 1) = '}' := by
    rw [f5]
    exact charAt_at _ _ _ _ (by omega)
  have hq : ∀ i, pre.length + 2 + key.length + 2 ≤ i →
      i < pre.length + key.length + post.length + 4 →
      charAt f i ≠ '{' ∧ charAt f i ≠ NUL := by
    intro i h1 h2
    have := charAt_mid (pre ++ ['{', '{'] ++ key ++ ['}', '}']) post ['\n'] i
      (by omega)
      (by omega)
    rw [← f6] at this
    exact ⟨(hpost _ this).1, (hpost _ this).2.2.2⟩
  have ha2 : charAt f (pre.length + 2) ≠ NUL := by
    rcases Nat.eq_zero_or_pos key.length with h0 | h0
    · have := hb0
      rw [h0, Nat.add_zero] at this
      rw [this]
      decide
    · exact (hk _ (le_refl _) (by omega)).2
  have s1 : slice f 0 (pre.length - 0) = pre := by
    rw [f0]
    exact slice_mid _ _ _ _ _ rfl rfl
  have s2 : slice f (pre.length + 2) (pre.length + 2 + key.length - (pre.length + 2)) = key := by
    rw [f3]
    exact slice_mid _ _ _ _ _ (by omega) (by omega)
  have s3 : slice f (pre.length + 2 + key.length + 2)
      (pre.length + key.length + post.length + 4 - (pre.length + 2 + key.length + 2)) = post := by
    rw [f6]
    exact slice_mid _ _ _ _ _ (by omega) (by omega)
  rw [show pre.length + key.length + post.length + 4 - 0 + 1
      = (pre.length + key.length + post.length + 3 + 1) + 1 by omega,
    renderLineLoop_marker locals f _ _ 0 pre.length (pre.length + 2 + key.length) []
      (by omega) (by omega) (by omega) hp ha0 ha1 ha2 (fun i h1 h2 => (hk i h1 h2).1) hb0 hb1
      (fun h => (hq _ (le_refl _) h).2) (by simp only [keyCapacity]; omega),
    renderLineLoop_rest locals f _ _ _ _ (by omega)
      (find_absent f openMarker _ _ (fun i h1 h2 => (hq i h1 h2).1)),
    s1, s2, s3, takeWhile_no_nul key (fun c hc => (hkey c hc).2.2.2)]
  simp

/-- Witness for C1: `Hello {{name}}!` with `name = World`; and with the value
`{{name}}`, which is written as it is. -/
theorem renderFile_single_marker_witness :
    renderFile [("name".toList, "World".toList)]
        ("Hello ".toList ++ openMarker ++ "name".toList ++ closeMarker ++ "!".toList ++ ['\n'])
      = .done ("Hello ".toList ++ Locals.lookup [("name".toList, "World".toList)] "name".toList
          ++ "!".toList ++ ['\n']) ∧
    "Hello ".toList ++ openMarker ++ "name".toList ++ closeMarker ++ "!".toList ++ ['\n']
      = "Hello \x7b\x7bname\x7d\x7d!\n".toList ∧
    "Hello ".toList ++ Locals.lookup [("name".toList, "World".toList)] "name".toList
          ++ "!".toList ++ ['\n'] = "Hello World!\n".toList ∧
    renderFile [("name".toList, "\x7b\x7bname\x7d\x7d".toList)]
        "Hello \x7b\x7bname\x7d\x7d!\n".toList
      = .done "Hello \x7b\x7bname\x7d\x7d!\n".toList :=
  ⟨renderFile_single_marker [("name".toList, "World".toList)] "Hello ".toList "name".toList
      "!".toList (by decide) (by decide) (by decide) (by decide) (by decide),
    by decide, by decide, by decide⟩

/-- C2: for `pre` free of open braces, line feeds and NUL and `rest` free of
the close marker, line feeds and NUL, rendering the buffer `pre ++ "{{" ++
rest ++ "\n"` returns normally having written exactly `pre`: no character of
`rest` and no line terminator. -/
theorem renderFile_unterminated_marker (locals : Locals) (pre rest : List Char)
    (hpre : ∀ c ∈ pre, c ≠ '{' ∧ c ≠ '\n' ∧ c ≠ NUL)
    (hrest : ∀ c ∈ rest, c ≠ '\n' ∧ c ≠ NUL)
    (hclose : ¬ closeMarker <:+: rest) :
    renderFile locals (pre ++ openMarker ++ rest ++ ['\n']) = .done pre := by
  have hline : ∀ c ∈ pre ++ openMarker ++ rest, c ≠ '\n' ∧ c ≠ NUL := by
    intro c hc
    simp only [List.mem_append, openMarker] at hc
    rcases hc with (hc | hc) | hc
    · exact (hpre c hc).2
    · have : c = '{' := by simpa using hc
      subst this
      decide
    · exact hrest c hc
  rw [renderFile_single_line locals _ hline, renderLine]
  generalize hf : pre ++ openMarker ++ rest ++ ['\n'] = f
  have f0 : f = [] ++ (pre ++ '{' :: '{' :: (rest ++ ['\n'])) := by
    simp [← hf, openMarker]
  have f1 : f = pre ++ '{' :: ('{' :: (rest ++ ['\n'])) := by
    simp [← hf, openMarker]
  have f2 : f = (pre ++ ['{']) ++ '{' :: (rest ++ ['\n']) := by
    simp [← hf, openMarker]
  have f3 : f = (pre ++ ['{', '{']) ++ (rest ++ ['\n']) := by
    simp [← hf, openMarker]
  have htot : (pre ++ openMarker ++ rest).length = pre.length + 2 + rest.length := by
    simp [openMarker]
    omega
  rw [htot]
  have hp : ∀ i, 0 ≤ i → i < pre.length → charAt f i ≠ '{' := by
    intro i _ hi
    have := charAt_mid [] pre ('{' :: '{' :: (rest ++ ['\n'])) i (by simp) (by simpa using hi)
    rw [← f0] at this
    exact (hpre _ this).1
  have ha0 : charAt f pre.length = '{' := by
    rw [f1]
    exact charAt_at _ _ _ _ rfl
  have ha1 : charAt f (pre.length + 1) = '{' := by
    rw [f2]
    exact charAt_at _ _ _ _ (by simp)
  have hr : ∀ k, k < rest.length → charAt f (pre.length + 2 + k) = charAt rest k := by
    intro k hk
    rw [f3, show pre.length + 2 + k = (pre ++ ['{', '{']).length + k by simp,
      charAt_append_right, charAt_append_left _ _ _ hk]
  have ha2 : pre.length + 2 < pre.length + 2 + rest.length →
      charAt f (pre.length + 2) ≠ NUL := by
    intro h
    have := hr 0 (by omega)
    rw [Nat.add_zero] at this
    rw [this]
    exact (hrest _ (charAt_mem rest 0 (by omega))).2
  have hfind : find f closeMarker (pre.length + 2) (pre.length + 2 + rest.length) = -1 := by
    refine find_no_pair f closeMarker _ _ (Or.inl (by omega)) ?_
    intro i h1 h2 h3
    obtain ⟨k, rfl⟩ : ∃ k, i = pre.length + 2 + k := ⟨i - (pre.length + 2), by omega⟩
    rw [hr k (by omega), show pre.length + 2 + k + 1 = pre.length + 2 + (k + 1) by omega,
      hr (k + 1) (by omega)] at h3
    exact hclose (infix_of_charAt _ _ rest k (by omega) h3.1 h3.2)
  have s1 : slice f 0 (pre.length - 0) = pre := by
    rw [f0]
    exact slice_mid _ _ _ _ _ rfl rfl
  rw [renderLineLoop_unterminated locals f _ _ 0 pre.length [] (by omega) (by omega) hp ha0 ha1
    ha2 hfind, s1]
  simp

/-- Witness for C2: `Hi {{name` is rendered as `Hi `. -/
theorem renderFile_unterminated_marker_witness :
    renderFile [("name".toList, "World".toList)]
        ("Hi ".toList ++ openMarker ++ "name".toList ++ ['\n']) = .done "Hi ".toList ∧
    "Hi ".toList ++ openMarker ++ "name".toList ++ ['\n'] = "Hi \x7b\x7bname\n".toList :=
  ⟨renderFile_unterminated_marker [("name".toList, "World".toList)] "Hi ".toList "name".toList
      (by decide) (by decide) (by decide),
    by decide⟩

/-- C3 (the code departs from the claim): a line that ends right after a close
marker, and an empty line, get no line terminator in the output.  The buffer
`{{missing}}` followed by a line feed, with empty locals, renders to nothing,
and so does the buffer made of a single line feed; the buffer `{{a}}`, line
feed, `{{b}}`, line feed renders to `AB` on one line. -/
theorem renderFile_drops_terminator_after_marker :
    renderFile [] "\x7b\x7bmissing\x7d\x7d\n".toList = .done [] ∧
    renderFile [] "\n".toList = .done [] ∧
    renderFile [("a".toList, "A".toList), ("b".toList, "B".toList)] "\x7b\x7ba\x7d\x7d\n\x7b\x7bb\x7d\x7d\n".toList
      = .done "AB".toList := by
  decide

/-- C4 (the code departs from the claim): the buffer `{a{b` followed by a line
feed contains no open marker, yet the scan started at buffer index 0 pairs
the two separate open braces and only `{` is written. -/
theorem renderFile_pairs_separate_braces_at_index_zero :
    ¬ openMarker <:+: "\x7ba\x7bb\n".toList ∧
    find "\x7ba\x7bb\n".toList openMarker 0 4 = 2 ∧
    renderFile [] "\x7ba\x7bb\n".toList = .done ['{'] := by
  decide

/-- C5 (the code departs from the claim): on a marker with a 15-character key
the code neither truncates nor rejects: it reaches
`strncpy(key_, _, 15); key_[15] = 0`, a store at index 15 of the 15-byte
buffer. -/
theorem renderFile_key_overflow :
    renderFile [] "\x7b\x7babcdefghijklmno\x7d\x7dx\n".toList = .keyOverflow [] 15 ∧
    "abcdefghijklmno".toList.length = 15 ∧ ¬ 15 < keyCapacity := by
  decide

/-- C14: for a two-character marker `ss = [c0, c1]`, a window `[from, to)`
with `from ≥ 1` and no NUL in it: when `k` is the first index of the window
that holds `c0`, the scan returns `k + 1` if `k + 1` is in the window and
holds `c1`, and `-1` if not (`k` is the last index of the window or is
followed by another character), whatever comes later in the window; and it
returns `-1` when `c0` does not occur in the window. -/
theorem find_exact (line : List Char) (c0 c1 : Char) (from_ to_ : Nat) (hfrom : 1 ≤ from_)
    (hnul : ∀ i, from_ ≤ i → i < to_ → charAt line i ≠ NUL) :
    (∀ k, from_ ≤ k → k < to_ → charAt line k = c0 →
      (∀ i, from_ ≤ i → i < k → charAt line i ≠ c0) →
      (k + 1 < to_ ∧ charAt line (k + 1) = c1 →
        find line [c0, c1] from_ to_ = ((k + 1 : Nat) : Int)) ∧
      (¬ (k + 1 < to_ ∧ charAt line (k + 1) = c1) → find line [c0, c1] from_ to_ = -1)) ∧
    ((∀ i, from_ ≤ i → i < to_ → charAt line i ≠ c0) → find line [c0, c1] from_ to_ = -1) := by
  have e0 : charAt [c0, c1] 0 = c0 := rfl
  have e1 : charAt [c0, c1] 1 = c1 := rfl
  have e2 : charAt [c0, c1] 2 = NUL := rfl
  refine ⟨?_, ?_⟩
  · intro k hk1 hk2 hk hfirst
    refine ⟨?_, ?_⟩
    · intro h
      exact find_hit line [c0, c1] from_ to_ k hk1 (by omega)
        (fun i h1 h2 => by rw [e0]; exact hfirst i h1 h2) (by rw [e0]; exact hk)
        (by rw [e1]; exact h.2)
        (fun h3 => by rw [e2]; exact hnul (k + 2) (by omega) h3)
    · intro h
      exact find_lone line [c0, c1] from_ to_ k hk1 hk2 (by omega)
        (fun i h1 h2 => by rw [e0]; exact hfirst i h1 h2) (by rw [e0]; exact hk)
        (fun h3 => by
          rw [e1]
          intro h4
          exact h ⟨h3, h4⟩)
  · intro h
    exact find_absent line [c0, c1] from_ to_ (fun i h1 h2 => by rw [e0]; exact h i h1 h2)

/-- Witness for C14: in `a{b{{c` scanned from index 1 the first open brace is
followed by `b`, so the scan returns `-1` although the marker occurs later;
in `ab{{c` it returns the index of the second brace. -/
theorem find_exact_witness :
    find "a\x7bb\x7b\x7bc".toList ['{', '{'] 1 6 = -1 ∧
    find "ab\x7b\x7bc".toList ['{', '{'] 1 5 = ((2 + 1 : Nat) : Int) :=
  ⟨((find_exact "a\x7bb\x7b\x7bc".toList '{' '{' 1 6 (by decide)
      (fun i h1 h2 => by
        have : i = 1 ∨ i = 2 ∨ i = 3 ∨ i = 4 ∨ i = 5 := by omega
        rcases this with h | h | h | h | h <;> subst h <;> decide)).1 1 (by decide) (by decide)
      (by decide) (fun i h1 h2 => by omega)).2 (by decide),
   ((find_exact "ab\x7b\x7bc".toList '{' '{' 1 5 (by decide)
      (fun i h1 h2 => by
        have : i = 1 ∨ i = 2 ∨ i = 3 ∨ i = 4 := by omega
        rcases this with h | h | h | h <;> subst h <;> decide)).1 2 (by decide) (by decide)
      (by decide) (fun i h1 h2 => by
        have : i = 1 := by omega
        subst this
        decide)).1 (by decide)⟩

/-- C15: for a two-character marker `ss = [c0, c1]` and any window
`[from, to)`, the scan returns `-1` or an index `w` with `from < w < to` that
holds `c1` and comes after an index of the window that holds `c0`.  Hence in
`renderLine` the length `index - from - 1` passed to `client.write` and the
length `index2 - from1 - 1` passed to `strncpy` (where `from1 = index + 1`)
are not negative, and the ranges read, `[from, index - 1)` and
`[from1, index2 - 1)`, lie inside `[from, to)`.  (The claim assumes no NUL in
the window; the embedding needs no such assumption.) -/
theorem find_inside_window (line : List Char) (c0 c1 : Char) (from_ to_ : Nat) :
    (find line [c0, c1] from_ to_ = -1 ∨
      ∃ w : Nat, find line [c0, c1] from_ to_ = (w : Int) ∧ from_ < w ∧ w < to_ ∧
        charAt line w = c1 ∧ ∃ i, from_ ≤ i ∧ i < w ∧ charAt line i = c0) ∧
    (¬ find line openMarker from_ to_ < 1 →
      0 ≤ find line openMarker from_ to_ - from_ - 1 ∧
      from_ + (find line openMarker from_ to_ - from_ - 1).toNat < to_ ∧
      (¬ find line closeMarker ((find line openMarker from_ to_).toNat + 1) to_ < 1 →
        0 ≤ find line closeMarker ((find line openMarker from_ to_).toNat + 1) to_
              - ((find line openMarker from_ to_).toNat + 1 : Nat) - 1 ∧
        from_ ≤ (find line openMarker from_ to_).toNat + 1 ∧
        (find line openMarker from_ to_).toNat + 1
          + (find line closeMarker ((find line openMarker from_ to_).toNat + 1) to_
              - ((find line openMarker from_ to_).toNat + 1 : Nat) - 1).toNat < to_)) := by
  refine ⟨?_, ?_⟩
  · rcases find_bounds line [c0, c1] from_ to_ with h | ⟨w, h1, h2, h3, h4, i, h5, h6, h7⟩
    · exact Or.inl h
    · exact Or.inr ⟨w, h1, h2, h3, h4, i, h5, h6, h7⟩
  · intro hopen
    rcases find_bounds line openMarker from_ to_ with h | ⟨w, h1, h2, h3, _⟩
    · rw [h] at hopen
      exact absurd (by decide) hopen
    · rw [h1]
      refine ⟨by omega, by omega, ?_⟩
      intro hclose
      rw [Int.toNat_ofNat] at hclose ⊢
      rcases find_bounds line closeMarker (w + 1) to_ with h | ⟨v, g1, g2, g3, _⟩
      · rw [h] at hclose
        exact absurd (by decide) hclose
      · rw [g1]
        refine ⟨by omega, by omega, by omega⟩

/-- Witness for C15 on the line `Hello {{name}}!`: the scan for the open
marker returns 7, the scan for the close marker from 8 returns 13; the
lengths are 6 and 4. -/
theorem find_inside_window_witness :
    find "Hello \x7b\x7bname\x7d\x7d!".toList openMarker 0 15 = 7 ∧
    find "Hello \x7b\x7bname\x7d\x7d!".toList closeMarker 8 15 = 13 ∧
    0 ≤ find "Hello \x7b\x7bname\x7d\x7d!".toList openMarker 0 15 - (0 : Nat) - 1 ∧
    0 + (find "Hello \x7b\x7bname\x7d\x7d!".toList openMarker 0 15 - (0 : Nat) - 1).toNat
      < 15 :=
  ⟨by decide, by decide,
   ((find_inside_window "Hello \x7b\x7bname\x7d\x7d!".toList '{' '{' 0 15).2 (by decide)).1,
   ((find_inside_window "Hello \x7b\x7bname\x7d\x7d!".toList '{' '{' 0 15).2 (by decide)).2.1⟩

/-- C17: `renderFile` returns for every buffer and every locals map (in the
embedding: it never reaches the iteration bound; it returns normally or stops
at a store beyond `key_`).  The loop of `renderLine` needs at most
`to - from` iterations (at least one): a bound of that size is never reached.
Every scan that finds a marker returns an index greater than `from`, so
`from = index + 1` increases; and the inner loop of `renderFile` never moves
backwards, so `start += i + 1` increases `start`. -/
theorem renderFile_terminates (locals : Locals) (f : List Char) :
    ((∃ out, renderFile locals f = .done out) ∨
      ∃ out n, renderFile locals f = .keyOverflow out n) ∧
    (∀ (line : List Char) (from_ to_ fuel : Nat) (out : List Char),
      1 ≤ fuel → to_ - from_ ≤ fuel →
      renderLineLoop locals line to_ fuel from_ out ≠ .fuelOut) ∧
    (∀ (line ss : List Char) (from_ to_ : Nat),
      ¬ find line ss from_ to_ < 1 → (from_ : Int) < find line ss from_ to_) ∧
    (∀ n start : Nat, start < scanLine f n start + 1) := by
  refine ⟨?_, ?_, ?_, ?_⟩
  · have h := renderFileLoop_ne_fuelOut locals f (f.length + 1) 0 [] (by omega) (by omega)
    rw [← renderFile] at h
    cases hr : renderFile locals f with
    | done out => exact Or.inl ⟨out, rfl⟩
    | keyOverflow out n => exact Or.inr ⟨out, n, rfl⟩
    | fuelOut => exact absurd hr h
  · intro line from_ to_ fuel out h1 h2
    exact renderLineLoop_ne_fuelOut locals line to_ fuel from_ out h1 h2
  · intro line ss from_ to_ h
    rcases find_bounds line ss from_ to_ with h1 | ⟨w, h1, h2, _⟩
    · rw [h1] at h
      exact absurd (by decide) h
    · rw [h1]
      omega
  · intro n start
    have := scanLine_ge f n start
    omega

/-- Witness for C17 on the buffer `Hello {{name}}!`: the loop of `renderLine`
with the bound `to - from = 15` does not reach the bound, and the scan for
the open marker returns an index above `from`. -/
theorem renderFile_terminates_witness :
    renderLineLoop [] "Hello \x7b\x7bname\x7d\x7d!\n".toList 15 15 0 [] ≠ .fuelOut ∧
    ((0 : Nat) : Int) < find "Hello \x7b\x7bname\x7d\x7d!\n".toList openMarker 0 15 :=
  ⟨(renderFile_terminates [] "Hello \x7b\x7bname\x7d\x7d!\n".toList).2.1
      "Hello \x7b\x7bname\x7d\x7d!\n".toList 0 15 15 [] (by decide) (by decide),
   (renderFile_terminates [] "Hello \x7b\x7bname\x7d\x7d!\n".toList).2.2.1
      "Hello \x7b\x7bname\x7d\x7d!\n".toList openMarker 0 15 (by decide)⟩

/-- C20: on a line (the window `[from, to)` of the buffer `f`) whose first open
brace is at a buffer index `a ≥ 1` and is the last character of the line or
is followed by another character, `renderLine` writes the whole line
unchanged, followed by a line terminator, for every locals map: nothing is
substituted, also when a well-formed marker comes later on the line. -/
theorem renderLine_lone_brace (locals : Locals) (f : List Char) (from_ to_ a : Nat)
    (out : List Char) (hfa : from_ ≤ a) (hat : a < to_) (ha : 1 ≤ a)
    (hfirst : ∀ i, from_ ≤ i → i < a → charAt f i ≠ '{')
    (ha0 : charAt f a = '{')
    (hnext : a + 1 < to_ → charAt f (a + 1) ≠ '{') :
    renderLine locals f from_ to_ out
      = .done (out ++ slice f from_ (to_ - from_) ++ ['\n']) := by
  rw [renderLine]
  exact renderLineLoop_rest locals f to_ _ from_ out (by omega)
    (find_lone f openMarker from_ to_ a hfa hat ha hfirst ha0 hnext)

/-- Witness for C20: the line `a{b {{name}}` is written unchanged although
`name` has a value. -/
theorem renderLine_lone_brace_witness :
    renderLine [("name".toList, "World".toList)] "a\x7bb \x7b\x7bname\x7d\x7d".toList 0 12 []
      = .done ([] ++ slice "a\x7bb \x7b\x7bname\x7d\x7d".toList 0 (12 - 0) ++ ['\n']) ∧
    [] ++ slice "a\x7bb \x7b\x7bname\x7d\x7d".toList 0 (12 - 0) ++ ['\n']
      = "a\x7bb \x7b\x7bname\x7d\x7d\n".toList ∧
    renderFile [("name".toList, "World".toList)] "a\x7bb \x7b\x7bname\x7d\x7d\n".toList
      = .done "a\x7bb \x7b\x7bname\x7d\x7d\n".toList :=
  ⟨renderLine_lone_brace [("name".toList, "World".toList)]
      "a\x7bb \x7b\x7bname\x7d\x7d".toList 0 12 1 [] (by decide) (by decide) (by decide)
      (fun i h1 h2 => by
        have : i = 0 := by omega
        subst this
        decide)
      (by decide) (fun _ => by decide),
   by decide, by decide⟩

/-- C13: for literal texts and keys free of the characters open brace, close
brace, line feed and NUL, keys of at most 14 characters, and a non-empty
final text `post`, rendering the buffer `pre_1 ++ "{{" ++ k_1 ++ "}}" ++ ...
++ pre_n ++ "{{" ++ k_n ++ "}}" ++ post ++ "\n"` writes exactly `pre_1 ++ v_1
++ ... ++ pre_n ++ v_n ++ post ++ "\n"`, where `v_i` is the value `locals`
holds for `k_i` (empty when absent).  The list `ms` holds the pairs
`(pre_i, k_i)`; it may have any length. -/
theorem renderFile_markers (locals : Locals) (ms : List (List Char × List Char))
    (post : List Char)
    (hms : ∀ m ∈ ms, (∀ c ∈ m.1, c ≠ '{' ∧ c ≠ '}' ∧ c ≠ '\n' ∧ c ≠ NUL) ∧
      (∀ c ∈ m.2, c ≠ '{' ∧ c ≠ '}' ∧ c ≠ '\n' ∧ c ≠ NUL) ∧ m.2.length ≤ 14)
    (hpost : ∀ c ∈ post, c ≠ '{' ∧ c ≠ '}' ∧ c ≠ '\n' ∧ c ≠ NUL)
    (hpost0 : post ≠ []) :
    renderFile locals (markerLine ms ++ post ++ ['\n'])
      = .done (markerLineValue locals ms ++ post ++ ['\n']) := by
  have hline : ∀ c ∈ markerLine ms ++ post, c ≠ '\n' ∧ c ≠ NUL := by
    intro c hc
    rcases List.mem_append.1 hc with h | h
    · rcases mem_markerLine ms c h with h1 | h1 | ⟨m, hm, h1 | h1⟩
      · subst h1
        decide
      · subst h1
        decide
      · exact ((hms m hm).1 c h1).2.2
      · exact ((hms m hm).2.1 c h1).2.2
    · exact (hpost c h).2.2
  rw [renderFile_single_line locals _ hline, renderLine]
  have hlen : (markerLine ms ++ post).length = (markerLine ms).length + post.length := by
    simp
  have hge := markerLine_length_ge ms
  have := renderLineLoop_markers locals (markerLine ms ++ post ++ ['\n']) post ms []
    (markerLine ms ++ post).length ((markerLine ms ++ post).length - 0 + 1) [] (by simp)
    (by simp)
    (fun m hm => ⟨fun c hc => ((hms m hm).1 c hc).1,
      fun c hc => ⟨((hms m hm).2.1 c hc).2.1, ((hms m hm).2.1 c hc).2.2.2⟩, (hms m hm).2.2⟩)
    (fun c hc => (hpost c hc).1) hpost0
    (fun i hi => by
      rw [charAt_append_left _ _ _ hi]
      exact (hline _ (charAt_mem _ i hi)).2)
    (by omega)
  simpa using this

/-- Witness for C13: two markers on one line, the first at the start of the
line and the second right after the first. -/
theorem renderFile_markers_witness :
    renderFile [("a".toList, "1".toList), ("b".toList, "22".toList)]
        (markerLine [([], "a".toList), ([], "b".toList), (" and ".toList, "c".toList)]
          ++ "!".toList ++ ['\n'])
      = .done (markerLineValue [("a".toList, "1".toList), ("b".toList, "22".toList)]
          [([], "a".toList), ([], "b".toList), (" and ".toList, "c".toList)]
          ++ "!".toList ++ ['\n']) ∧
    markerLine [([], "a".toList), ([], "b".toList), (" and ".toList, "c".toList)]
        ++ "!".toList ++ ['\n']
      = "\x7b\x7ba\x7d\x7d\x7b\x7bb\x7d\x7d and \x7b\x7bc\x7d\x7d!\n".toList ∧
    markerLineValue [("a".toList, "1".toList), ("b".toList, "22".toList)]
        [([], "a".toList), ([], "b".toList), (" and ".toList, "c".toList)]
        ++ "!".toList ++ ['\n'] = "122 and !\n".toList :=
  ⟨renderFile_markers [("a".toList, "1".toList), ("b".toList, "22".toList)]
      [([], "a".toList), ([], "b".toList), (" and ".toList, "c".toList)] "!".toList
      (by decide) (by decide) (by decide),
   by decide, by decide⟩

/-- C18: for every buffer `b` (in particular one that does not end with a
line feed) and every locals map, `renderFile` on `b` has the same outcome,
and so writes the same output, as on `b` followed by a line feed: the last
line is rendered alike whether the line feed or the terminator ends it, and
the line feed at the end of the buffer adds no empty line.  For instance
`abc` and `abc` followed by a line feed both render to `abc` and a line
terminator. -/
theorem renderFile_line_feed_or_end (locals : Locals) (b : List Char) :
    renderFile locals b = renderFile locals (b ++ ['\n']) ∧
    renderFile locals "abc".toList = .done "abc\n".toList ∧
    renderFile locals "abc\n".toList = .done "abc\n".toList := by
  refine ⟨?_, ?_, ?_⟩
  · simp only [renderFile]
    exact (renderFileLoop_append_newline locals b (b.length + 1) ((b ++ ['\n']).length + 1) 0 []
      (by omega) (by omega) (by omega) (by simp)).symm
  · rfl
  · rfl

/-! Path segmenter: the claims -/

/-- C6: for a non-empty path `p` the segments appended to an empty vector are
at least one, the first has offset 0, every later offset is the previous
offset plus the previous length, every length is at least 1, the last
segment ends at `p.length`, every segment lies inside `p`, and concatenating
the denoted substrings in order gives back `p`. -/
theorem splitToVector_round_trip (p : List Char) (hp : p ≠ []) :
    splitToVector p [] ≠ [] ∧
    (∀ d, (splitToVector p []).head? = some d → d.pos = 0) ∧
    (∀ i (h : i + 1 < (splitToVector p []).length),
      ((splitToVector p []).get ⟨i + 1, h⟩).pos
        = ((splitToVector p []).get ⟨i, by omega⟩).pos
          + ((splitToVector p []).get ⟨i, by omega⟩).len) ∧
    (∀ d ∈ splitToVector p [], 1 ≤ d.len) ∧
    (∀ d, (splitToVector p []).getLast? = some d → d.pos + d.len = p.length) ∧
    (∀ d ∈ splitToVector p [], d.pos + d.len ≤ p.length) ∧
    ((splitToVector p []).map (segment p)).flatten = p := by
  have ht := splitToVector_tiles p hp
  obtain ⟨h1, h2, h3, h4⟩ := tiles_props 0 p.length _ ht
  refine ⟨splitToVector_ne_nil p [], h3, h2, fun d hd => (h1 d hd).1, h4,
    fun d hd => (h1 d hd).2.2, ?_⟩
  rw [(tiles_flatten p 0 p.length _ ht).2]
  simp [slice]

/-- Witness for C6 at the path `/a/b`. -/
theorem splitToVector_round_trip_witness :
    splitToVector "/a/b".toList [] = [⟨0, 2⟩, ⟨2, 2⟩] ∧
    ((splitToVector "/a/b".toList []).map (segment "/a/b".toList)).flatten
      = "/a/b".toList :=
  ⟨by decide, (splitToVector_round_trip "/a/b".toList (by decide)).2.2.2.2.2.2⟩

/-- C7: for a non-empty path `p`, segmenting into an empty vector gives at
least one segment, and exactly one more than the number of separators at
indices 1 and above (the characters of `p.tail`). -/
theorem splitToVector_count (p : List Char) (hp : p ≠ []) :
    1 ≤ (splitToVector p []).length ∧
    (splitToVector p []).length = 1 + p.tail.count delimiter := by
  have hlen : 0 < p.length := List.length_pos.2 hp
  have h : (splitToVector p []).length = 1 + p.tail.count delimiter := by
    rw [splitToVector, splitLoop_length]
    have e : (p.drop 1).take (p.length - 1) = p.tail := by
      rw [List.drop_one]
      exact List.take_of_length_le (by simp)
    rw [e]
    simp
  exact ⟨by omega, h⟩

/-- Witness for C7: the three paths named by the claim. -/
theorem splitToVector_count_witness :
    (1 ≤ (splitToVector "/a/".toList []).length ∧
      (splitToVector "/a/".toList []).length = 1 + "/a/".toList.tail.count delimiter) ∧
    (splitToVector "/".toList []).length = 1 ∧
    (splitToVector "/a/b".toList []).length = 2 ∧
    (splitToVector "/a/".toList []).length = 2 :=
  ⟨splitToVector_count "/a/".toList (by decide), by decide, by decide, by decide⟩

/-- C8: two invocations of the static `splitToVector` on the same path, each
started with an empty output vector, leave equal vectors: same length and the
same descriptor at every index. -/
theorem splitToVector_idempotent (p : List Char) (v1 v2 : List PosLen)
    (h1 : v1 = []) (h2 : v2 = []) :
    splitToVector p v1 = splitToVector p v2 ∧
    (splitToVector p v1).length = (splitToVector p v2).length ∧
    ∀ i : Nat, (splitToVector p v1)[i]? = (splitToVector p v2)[i]? := by
  subst h1 h2
  exact ⟨rfl, rfl, fun _ => rfl⟩

/-- Witness for C8 at the path `/user/:id`. -/
theorem splitToVector_idempotent_witness :
    splitToVector "/user/:id".toList [] = splitToVector "/user/:id".toList [] ∧
    splitToVector "/user/:id".toList [] = [⟨0, 5⟩, ⟨5, 4⟩] :=
  ⟨(splitToVector_idempotent "/user/:id".toList [] [] rfl rfl).1, by decide⟩

/-- C16: for a non-empty path `p`, in the segments appended to an empty
vector, every segment but the first starts on a separator, and no segment
holds a separator after its first character. -/
theorem splitToVector_separators (p : List Char) (hp : p ≠ []) :
    (∀ (i : Nat) (d : PosLen), 1 ≤ i → (splitToVector p [])[i]? = some d →
      charAt p d.pos = delimiter) ∧
    (∀ d ∈ splitToVector p [], ∀ k, d.pos < k → k < d.pos + d.len →
      charAt p k ≠ delimiter) := by
  have hs : ∀ d ∈ splitToVector p [], SepOk p d :=
    splitLoop_sepOk p (p.length - 1) 0 1 [] (by simp) (Or.inl rfl) (by omega)
      (fun k h1 h2 => by omega)
  refine ⟨?_, fun d hd => (hs d hd).2⟩
  intro i d hi hd
  have hpos := tiles_pos_of_index 0 p.length _ (splitToVector_tiles p hp) i d hi hd
  rcases (hs d (List.getElem?_mem hd)).1 with h | h
  · omega
  · exact h

/-- Witness for C16 at the path `/a/b`. -/
theorem splitToVector_separators_witness :
    splitToVector "/a/b".toList [] = [⟨0, 2⟩, ⟨2, 2⟩] ∧
    charAt "/a/b".toList (PosLen.mk 2 2).pos = delimiter :=
  ⟨by decide,
   (splitToVector_separators "/a/b".toList (by decide)).1 1 ⟨2, 2⟩ (by decide) (by decide)⟩

/-- C19: `splitToVector` appends: after `splitToVector(p, v)` the vector is
its previous contents followed by the segments of `p`.  Hence the member
`Route::splitToVector(p)` called twice on a route leaves `indices` with its
previous contents followed by the segment list of `p` twice; starting from
empty `indices` that is `2 n` entries for a path of `n` segments. -/
theorem splitToVector_appends {σ : Type} (p : List Char) (v : List PosLen) (r : Route σ) :
    splitToVector p v = v ++ splitToVector p [] ∧
    ((r.splitToVector p).splitToVector p).indices
      = r.indices ++ splitToVector p [] ++ splitToVector p [] ∧
    (r.indices = [] →
      ((r.splitToVector p).splitToVector p).indices.length
        = 2 * (splitToVector p []).length) := by
  have h1 : ∀ w : List PosLen, splitToVector p w = w ++ splitToVector p [] :=
    fun w => splitLoop_append p (p.length - 1) 0 1 w
  have h2 : ((r.splitToVector p).splitToVector p).indices
      = r.indices ++ splitToVector p [] ++ splitToVector p [] := by
    simp only [Route.splitToVector]
    rw [h1 (splitToVector p r.indices), h1 r.indices]
  refine ⟨h1 v, h2, ?_⟩
  intro h
  rw [h2, h]
  simp only [List.nil_append, List.length_append]
  omega

/-- Witness for C19: the member called twice with `/a/b` on a route with
empty `indices` leaves four entries. -/
theorem splitToVector_appends_witness :
    ((Route.splitToVector (Route.splitToVector
        (Route.mk Method.GET "/a/b".toList [] silentUnit []) "/a/b".toList)
        "/a/b".toList).indices).length = 2 * (splitToVector "/a/b".toList []).length ∧
    (Route.splitToVector (Route.splitToVector
        (Route.mk Method.GET "/a/b".toList [] silentUnit []) "/a/b".toList)
        "/a/b".toList).indices = [⟨0, 2⟩, ⟨2, 2⟩, ⟨0, 2⟩, ⟨2, 2⟩] :=
  ⟨(splitToVector_appends "/a/b".toList []
      (Route.mk Method.GET "/a/b".toList [] silentUnit [])).2.2 rfl,
   by decide⟩

/-- C21: for the empty path, `splitToVector` with an empty vector gives
exactly one descriptor, with offset 0 and length 1 (the loop does not run and
the final `push_back` stores `{p, i - p}` with `p = 0`, `i = 1`); its extent
`offset + length = 1` exceeds the path length 0, so it does not lie inside
the string, whereas every descriptor of a non-empty path does. -/
theorem splitToVector_empty_path :
    splitToVector [] [] = [⟨0, 1⟩] ∧
    (∀ d ∈ splitToVector [] [],
      d.pos = 0 ∧ d.len = 1 ∧ ([] : List Char).length < d.pos + d.len) ∧
    (∀ p : List Char, p ≠ [] → ∀ d ∈ splitToVector p [], d.pos + d.len ≤ p.length) := by
  have h0 : splitToVector [] [] = [⟨0, 1⟩] := rfl
  refine ⟨h0, ?_, ?_⟩
  · intro d hd
    rw [h0, List.mem_singleton] at hd
    subst hd
    exact ⟨rfl, rfl, by decide⟩
  · intro p hp d hd
    exact ((tiles_props 0 p.length _ (splitToVector_tiles p hp)).1 d hd).2.2

/-- Witness for C21: the descriptor of the empty path reaches index 1 of a
string of length 0, and the descriptors of `/` stay inside it. -/
theorem splitToVector_empty_path_witness :
    (PosLen.mk 0 1).pos = 0 ∧ (PosLen.mk 0 1).len = 1 ∧
      ([] : List Char).length < (PosLen.mk 0 1).pos + (PosLen.mk 0 1).len ∧
    (PosLen.mk 0 1).pos + (PosLen.mk 0 1).len ≤ "/".toList.length :=
  ⟨(splitToVector_empty_path.2.1 ⟨0, 1⟩ (by decide)).1,
   (splitToVector_empty_path.2.1 ⟨0, 1⟩ (by decide)).2.1,
   (splitToVector_empty_path.2.1 ⟨0, 1⟩ (by decide)).2.2,
   splitToVector_empty_path.2.2 "/".toList (by decide) ⟨0, 1⟩ (by decide)⟩

/-! Route matching and chain: lemmas and claims -/

theorem matchLoop_value_of_not_bound (path requestPath : List Char) (name : List Char)
    (ps rs : List PosLen) (params : Params)
    (h : ∀ a ∈ ps, isParam path a = true → paramName path a ≠ name) :
    (matchLoop path requestPath ps rs params).2.value name = params.value name := by
  induction ps generalizing rs params with
  | nil => simp [matchLoop]
  | cons a ps ih =>
    cases rs with
    | nil => simp [matchLoop]
    | cons b rs =>
      have ih2 := fun params => ih rs params (fun a2 h2 => h a2 (List.mem_cons_of_mem _ h2))
      simp only [matchLoop]
      split
      · rename_i hp
        rw [ih2]
        have hne := h a (List.mem_cons_self _ _) hp
        simp only [Params.value, Params.bind, List.lookup]
        have : (name == paramName path a) = false := by
          simpa using fun e => hne e.symm
        rw [this]
      · split
        · exact ih2 params
        · rfl

theorem matchLoop_spec (path requestPath : List Char) (ps rs : List PosLen) (params : Params)
    (hlen : rs.length = ps.length) :
    ((matchLoop path requestPath ps rs params).1 = true ↔
      ∀ (i : Nat) (a b : PosLen), ps[i]? = some a → rs[i]? = some b →
        isParam path a = false → segment requestPath b = segment path a) ∧
    ((matchLoop path requestPath ps rs params).1 = true →
      ∀ (i : Nat) (a b : PosLen), ps[i]? = some a → rs[i]? = some b →
        isParam path a = true →
        (∀ (k : Nat) (c : PosLen), i < k → ps[k]? = some c → isParam path c = true →
          paramName path c ≠ paramName path a) →
        (matchLoop path requestPath ps rs params).2.value (paramName path a)
          = some (segmentText requestPath b)) := by
  induction ps generalizing rs params with
  | nil =>
    cases rs with
    | nil => simp [matchLoop]
    | cons b rs => simp at hlen
  | cons a ps ih =>
    cases rs with
    | nil => simp at hlen
    | cons b rs =>
      have hlen2 : rs.length = ps.length := by simpa using hlen
      simp only [matchLoop]
      by_cases hp : isParam path a = true
      · rw [if_pos hp]
        obtain ⟨ih1, ih2⟩ :=
          ih rs (params.bind (paramName path a) (segmentText requestPath b)) hlen2
        constructor
        · rw [ih1]
          constructor
          · intro h i x y hx hy hnp
            cases i with
            | zero =>
              simp only [List.getElem?_cons_zero, Option.some.injEq] at hx
              subst hx
              rw [hp] at hnp
              exact absurd hnp (by decide)
            | succ i => exact h i x y (by simpa using hx) (by simpa using hy) hnp
          · intro h i x y hx hy hnp
            exact h (i + 1) x y (by simpa using hx) (by simpa using hy) hnp
        · intro hres i x y hx hy hxp hlast
          cases i with
          | zero =>
            simp only [List.getElem?_cons_zero, Option.some.injEq] at hx hy
            subst hx hy
            rw [matchLoop_value_of_not_bound]
            · simp [Params.value, Params.bind, List.lookup]
            · intro c hc hcp
              obtain ⟨k, hk, hkc⟩ := List.getElem_of_mem hc
              exact hlast (k + 1) c (by omega)
                (by simp [List.getElem?_eq_getElem hk, hkc]) hcp
          | succ i =>
            refine ih2 hres i x y (by simpa using hx) (by simpa using hy) hxp ?_
            intro k c hik hc hcp
            exact hlast (k + 1) c (by omega) (by simpa using hc) hcp
      · rw [if_neg hp]
        have hp2 : isParam path a = false := by simpa using hp
        by_cases heq : segment requestPath b = segment path a
        · rw [if_pos heq]
          obtain ⟨ih1, ih2⟩ := ih rs params hlen2
          constructor
          · rw [ih1]
            constructor
            · intro h i x y hx hy hnp
              cases i with
              | zero =>
                simp only [List.getElem?_cons_zero, Option.some.injEq] at hx hy
                subst hx hy
                exact heq
              | succ i => exact h i x y (by simpa using hx) (by simpa using hy) hnp
            · intro h i x y hx hy hnp
              exact h (i + 1) x y (by simpa using hx) (by simpa using hy) hnp
          · intro hres i x y hx hy hxp hlast
            cases i with
            | zero =>
              simp only [List.getElem?_cons_zero, Option.some.injEq] at hx
              subst hx
              rw [hp2] at hxp
              exact absurd hxp (by decide)
            | succ i =>
              refine ih2 hres i x y (by simpa using hx) (by simpa using hy) hxp ?_
              intro k c hik hc hcp
              exact hlast (k + 1) c (by omega) (by simpa using hc) hcp
        · rw [if_neg heq]
          constructor
          · constructor
            · intro h
              exact absurd h Bool.false_ne_true
            · intro h
              exact absurd (h 0 a b (by simp) (by simp) hp2) heq
          · intro h
            exact absurd h Bool.false_ne_true

theorem runChain_stops (σ : Type) (chain : List (MiddlewareCallback σ)) (s : σ)
    (k : Nat) (u : MiddlewareCallback σ) (hu : chain[k]? = some u)
    (hbefore : ∀ (i : Nat) (v : MiddlewareCallback σ), i < k → chain[i]? = some v →
      (v (stateAfter (chain.take i) s) true).2 = true)
    (hclear : (u (stateAfter (chain.take k) s) true).2 = false) :
    (runChain chain s).2 = chain.take (k + 1) ∧
    (runChain chain s).1 = stateAfter (chain.take (k + 1)) s := by
  induction chain generalizing s k with
  | nil => simp at hu
  | cons u0 us ih =>
    cases k with
    | zero =>
      simp only [List.getElem?_cons_zero, Option.some.injEq] at hu
      subst hu
      simp only [List.take_zero, stateAfter, List.foldl_nil] at hclear
      simp [runChain, hclear, stateAfter]
    | succ k =>
      have h0 : (u0 s true).2 = true := by
        simpa [stateAfter] using hbefore 0 u0 (by omega) (by simp)
      have := ih (u0 s true).1 k (by simpa using hu)
        (fun i v hi hv => by
          simpa [stateAfter] using hbefore (i + 1) v (by omega) (by simpa using hv))
        (by simpa [stateAfter] using hclear)
      simp only [runChain, h0, if_true, List.take_succ_cons, this.1, this.2]
      simp [stateAfter]

theorem runChain_all (σ : Type) (chain : List (MiddlewareCallback σ)) (s : σ)
    (hall : ∀ (i : Nat) (v : MiddlewareCallback σ), chain[i]? = some v →
      (v (stateAfter (chain.take i) s) true).2 = true) :
    (runChain chain s).2 = chain ∧ (runChain chain s).1 = stateAfter chain s := by
  induction chain generalizing s with
  | nil => simp [runChain, stateAfter]
  | cons u0 us ih =>
    have h0 : (u0 s true).2 = true := by
      simpa [stateAfter] using hall 0 u0 (by simp)
    have := ih (u0 s true).1 (fun i v hv => by
      simpa [stateAfter] using hall (i + 1) v (by simpa using hv))
    simp only [runChain, h0, if_true, this.1, this.2]
    simp [stateAfter]

/-- C9: with the segment lists that `splitToVector` produces for the pattern
and for the request path: `match` fails when the lists differ in length; when
they agree in length it succeeds exactly when every pattern segment that is
not a `:`-parameter equals the request segment at the same index in full
(separator included); and on success the parameter map holds, for each
parameter segment, the text of the request segment at the same index under
the parameter's name (a name used by several parameter segments holds the
text bound last). -/
theorem match_spec (path requestPath : List Char) (pathItems requestPathItems : List PosLen)
    (params : Params) (hP : pathItems = splitToVector path [])
    (hR : requestPathItems = splitToVector requestPath []) :
    (requestPathItems.length ≠ pathItems.length →
      (match_ path pathItems requestPath requestPathItems params).1 = false) ∧
    (requestPathItems.length = pathItems.length →
      ((match_ path pathItems requestPath requestPathItems params).1 = true ↔
        ∀ (i : Nat) (a b : PosLen), pathItems[i]? = some a → requestPathItems[i]? = some b →
          isParam path a = false → segment requestPath b = segment path a) ∧
      ((match_ path pathItems requestPath requestPathItems params).1 = true →
        ∀ (i : Nat) (a b : PosLen), pathItems[i]? = some a → requestPathItems[i]? = some b →
          isParam path a = true →
          (∀ (k : Nat) (c : PosLen), i < k → pathItems[k]? = some c →
            isParam path c = true → paramName path c ≠ paramName path a) →
          (match_ path pathItems requestPath requestPathItems params).2.value
              (paramName path a) = some (segmentText requestPath b))) := by
  subst hP hR
  constructor
  · intro h
    simp [match_, h]
  · intro h
    simp only [match_, h, ne_eq, not_true_eq_false, if_false]
    exact matchLoop_spec path requestPath _ _ params h

/-- Witness for C9: pattern `/user/:id` against the request path `/user/42`. -/
theorem match_spec_witness :
    (match_ "/user/:id".toList (splitToVector "/user/:id".toList []) "/user/42".toList
        (splitToVector "/user/42".toList []) []).1 = true ∧
    (match_ "/user/:id".toList (splitToVector "/user/:id".toList []) "/user/42".toList
        (splitToVector "/user/42".toList []) []).2.value (paramName "/user/:id".toList ⟨5, 4⟩)
      = some (segmentText "/user/42".toList ⟨5, 3⟩) ∧
    paramName "/user/:id".toList ⟨5, 4⟩ = "id".toList ∧
    segmentText "/user/42".toList ⟨5, 3⟩ = "42".toList :=
  ⟨by decide,
   ((match_spec "/user/:id".toList "/user/42".toList _ _ [] rfl rfl).2 (by decide)).2
     (by decide) 1 ⟨5, 4⟩ ⟨5, 3⟩ (by decide) (by decide) (by decide)
     (fun k c hk hc => by
       have e : splitToVector "/user/:id".toList [] = [⟨0, 5⟩, ⟨5, 4⟩] := by decide
       rw [e, List.getElem?_eq_none (by simpa using hk)] at hc
       exact absurd hc (by simp)),
   by decide, by decide⟩

/-- C10: for the effective chain (app-level middlewares, then the route's
middlewares, then the terminal handler): if the unit at index `k` is the
first that clears the continuation flag, the units invoked are exactly the
first `k + 1` units of the chain, in order, and nothing after them; if no
unit clears the flag, the whole chain is invoked in order. -/
theorem chain_short_circuit (σ : Type) (middlewares routeMiddlewares : List (MiddlewareCallback σ))
    (fptrCallback : MiddlewareCallback σ) (s : σ) :
    (∀ (k : Nat) (u : MiddlewareCallback σ),
      (effectiveChain middlewares routeMiddlewares fptrCallback)[k]? = some u →
      (∀ (i : Nat) (v : MiddlewareCallback σ), i < k →
        (effectiveChain middlewares routeMiddlewares fptrCallback)[i]? = some v →
        (v (stateAfter ((effectiveChain middlewares routeMiddlewares fptrCallback).take i) s)
          true).2 = true) →
      (u (stateAfter ((effectiveChain middlewares routeMiddlewares fptrCallback).take k) s)
        true).2 = false →
      (runChain (effectiveChain middlewares routeMiddlewares fptrCallback) s).2
        = (effectiveChain middlewares routeMiddlewares fptrCallback).take (k + 1)) ∧
    ((∀ (i : Nat) (v : MiddlewareCallback σ),
        (effectiveChain middlewares routeMiddlewares fptrCallback)[i]? = some v →
        (v (stateAfter ((effectiveChain middlewares routeMiddlewares fptrCallback).take i) s)
          true).2 = true) →
      (runChain (effectiveChain middlewares routeMiddlewares fptrCallback) s).2
        = effectiveChain middlewares routeMiddlewares fptrCallback) :=
  ⟨fun k u hu hb hc => (runChain_stops σ _ s k u hu hb hc).1,
   fun hall => (runChain_all σ _ s hall).1⟩

/-- Witness for C10: in the chain `[A, B, C]` where `B` clears the flag, the
units invoked are `[A, B]` and the log they leave is `AB`. -/
theorem chain_short_circuit_witness :
    (runChain (effectiveChain [logUnit 'A'] [haltUnit 'B'] (logUnit 'C')) []).2
      = [logUnit 'A', haltUnit 'B'] ∧
    (runChain (effectiveChain [logUnit 'A'] [haltUnit 'B'] (logUnit 'C')) []).1 = ['A', 'B'] :=
  ⟨(chain_short_circuit (List Char) [logUnit 'A'] [haltUnit 'B'] (logUnit 'C') []).1 1
      (haltUnit 'B') rfl
      (fun i v hi hv => by
        obtain rfl : i = 0 := by omega
        obtain rfl : logUnit 'A' = v := by simpa [effectiveChain] using hv
        rfl)
      rfl,
   rfl⟩

/-! Dispatcher: lemmas and claims -/

theorem routeAccepts_congr {σ : Type} (r1 r2 : Route σ) (req : Request)
    (hm : r1.method = r2.method) (hp : r1.path = r2.path) (hi : r1.indices = r2.indices) :
    routeAccepts r1 req = routeAccepts r2 req := by
  simp only [routeAccepts, hm, hp, hi]

/-- What `firstMatch` returns is a registered route that accepts the request,
with the parameters it bound, and no route registered before it accepts. -/
theorem firstMatch_some {σ : Type} (routes : List (Route σ)) (req : Request) (k : Nat)
    (r : Route σ) (params : Params) (h : firstMatch routes req = some (k, r, params)) :
    routes[k]? = some r ∧ (routeAccepts r req).1 = true ∧ params = (routeAccepts r req).2 ∧
    ∀ (j : Nat) (r2 : Route σ), j < k → routes[j]? = some r2 →
      (routeAccepts r2 req).1 = false := by
  induction routes generalizing k with
  | nil => simp [firstMatch] at h
  | cons r0 rs ih =>
    simp only [firstMatch] at h
    by_cases h0 : (routeAccepts r0 req).1 = true
    · rw [if_pos h0] at h
      simp only [Option.some.injEq, Prod.mk.injEq] at h
      obtain ⟨rfl, rfl, rfl⟩ := h
      exact ⟨by simp, h0, rfl, fun j r2 hj _ => absurd hj (Nat.not_lt_zero j)⟩
    · rw [if_neg h0] at h
      cases hrs : firstMatch rs req with
      | none => simp [hrs] at h
      | some x =>
        obtain ⟨k2, r3, p3⟩ := x
        simp only [hrs, Option.map_some', Option.some.injEq, Prod.mk.injEq] at h
        obtain ⟨rfl, rfl, rfl⟩ := h
        obtain ⟨g1, g2, g3, g4⟩ := ih k2 hrs
        refine ⟨by simpa using g1, g2, g3, ?_⟩
        intro j r2 hj hr2
        cases j with
        | zero =>
          simp only [List.getElem?_cons_zero, Option.some.injEq] at hr2
          subst hr2
          simpa using h0
        | succ j => exact g4 j r2 (by omega) (by simpa using hr2)

/-- When a registered route accepts the request, `firstMatch` returns a route
registered no later. -/
theorem firstMatch_of_accepts {σ : Type} (routes : List (Route σ)) (req : Request) (i : Nat)
    (r : Route σ) (hr : routes[i]? = some r) (hacc : (routeAccepts r req).1 = true) :
    ∃ x, firstMatch routes req = some x ∧ x.1 ≤ i := by
  induction routes generalizing i with
  | nil => simp at hr
  | cons r0 rs ih =>
    simp only [firstMatch]
    by_cases h0 : (routeAccepts r0 req).1 = true
    · rw [if_pos h0]
      exact ⟨_, rfl, Nat.zero_le i⟩
    · rw [if_neg h0]
      cases i with
      | zero =>
        simp only [List.getElem?_cons_zero, Option.some.injEq] at hr
        subst hr
        exact absurd hacc h0
      | succ i =>
        obtain ⟨x, hx1, hx2⟩ := ih i (by simpa using hr)
        exact ⟨(x.1 + 1, x.2), by simp [hx1], by simpa using hx2⟩

theorem evaluate_of_firstMatch {ρ : Type} (routes : List (Route (Request × ρ)))
    (middlewares : List (MiddlewareCallback (Request × ρ)))
    (mountPaths : List (List Char × Dispatcher ρ)) (req : Request) (res : ρ) (k : Nat)
    (r : Route (Request × ρ)) (params : Params)
    (h : firstMatch routes req = some (k, r, params)) :
    Dispatcher.evaluate (.mk routes middlewares mountPaths) req res
      = ⟨true,
          (runChain (effectiveChain middlewares r.middlewares r.fptrCallback)
            ({ req with params := params }, res)).1,
          (runChain (effectiveChain middlewares r.middlewares r.fptrCallback)
            ({ req with params := params }, res)).2⟩ := by
  simp only [Dispatcher.evaluate, h]

theorem evaluate_of_no_match {ρ : Type} (routes : List (Route (Request × ρ)))
    (middlewares : List (MiddlewareCallback (Request × ρ)))
    (mountPaths : List (List Char × Dispatcher ρ)) (req : Request) (res : ρ)
    (h : firstMatch routes req = none) :
    Dispatcher.evaluate (.mk routes middlewares mountPaths) req res
      = evaluateMounts mountPaths req res := by
  simp only [Dispatcher.evaluate, h]

theorem evaluateMounts_first {ρ : Type} (before after : List (List Char × Dispatcher ρ))
    (mountPath : List Char) (child : Dispatcher ρ) (req : Request) (res : ρ)
    (hbefore : ∀ e ∈ before, ¬ e.1 <+: req.path) (hm : mountPath <+: req.path) :
    evaluateMounts (before ++ (mountPath, child) :: after) req res
      = child.evaluate { req with path := mountRemainder mountPath req.path } res := by
  induction before with
  | nil => simp [evaluateMounts, hm]
  | cons e rest ih =>
    obtain ⟨m0, c0⟩ := e
    have h0 : ¬ m0 <+: req.path := hbefore (m0, c0) (List.mem_cons_self _ _)
    simp only [List.cons_append, evaluateMounts, if_neg h0]
    exact ih (fun e he => hbefore e (List.mem_cons_of_mem _ he))

theorem mountRemainder_append (m r : List Char) :
    mountRemainder m (m ++ r) = if r = [] then ['/'] else r := by
  simp [mountRemainder]

/-- C11 (counterexample): in the dispatcher with the routes `GET /:x`,
`GET /a`, `GET /a`, in this order, the request `GET /a` matches the two
routes for `/a`, which have the same method and pattern, yet the chain that
runs is the one of `GET /:x`: the response is `X`, where the chain of the
earlier of the two routes would leave `A`. -/
theorem evaluate_earlier_route_preempted :
    firstRoute.method = secondRoute.method ∧ firstRoute.path = secondRoute.path ∧
    (routeAccepts firstRoute requestA).1 = true ∧
    (routeAccepts secondRoute requestA).1 = true ∧
    (Dispatcher.evaluate (.mk [wildcardRoute, firstRoute, secondRoute] [] [])
      requestA []).handled = true ∧
    (Dispatcher.evaluate (.mk [wildcardRoute, firstRoute, secondRoute] [] [])
      requestA []).state.2 = ['X'] ∧
    (runChain (effectiveChain [] firstRoute.middlewares firstRoute.fptrCallback)
      ({ requestA with params := (routeAccepts firstRoute requestA).2 }, [])).1.2 = ['A'] ∧
    (firstMatch [wildcardRoute, firstRoute, secondRoute] requestA).map (fun x => x.1)
      = some 0 := by
  decide

/-- C11 (amended): in a dispatcher in which two routes with the same method
and the same pattern are registered, the later one is never the route
`evaluate` selects, for any request whatever; every request that they match
is handled, by a route registered no later than the earlier of the two; and
for a request that they match and that no route registered before them
matches, `evaluate` returns `handled = true` and runs exactly the effective
chain of the earlier route, with the parameters that route bound, whatever
the chain emits. -/
theorem evaluate_first_registered {ρ : Type} (routes : List (Route (Request × ρ)))
    (middlewares : List (MiddlewareCallback (Request × ρ)))
    (mountPaths : List (List Char × Dispatcher ρ)) (i j : Nat)
    (r1 r2 : Route (Request × ρ))
    (hij : i < j) (h1 : routes[i]? = some r1) (h2 : routes[j]? = some r2)
    (hm : r1.method = r2.method) (hp : r1.path = r2.path)
    (hc1 : r1.indices = splitToVector r1.path [])
    (hc2 : r2.indices = splitToVector r2.path []) :
    (∀ (req : Request) (x : Nat × Route (Request × ρ) × Params),
      firstMatch routes req = some x → x.1 ≠ j) ∧
    (∀ (req : Request) (res : ρ), (routeAccepts r1 req).1 = true →
      (routeAccepts r2 req).1 = true ∧
      (Dispatcher.evaluate (.mk routes middlewares mountPaths) req res).handled = true ∧
      ∃ x, firstMatch routes req = some x ∧ x.1 ≤ i ∧ x.1 ≠ j) ∧
    (∀ (req : Request) (res : ρ), (routeAccepts r1 req).1 = true →
      (∀ (k : Nat) (r : Route (Request × ρ)), k < i → routes[k]? = some r →
        (routeAccepts r req).1 = false) →
      (Dispatcher.evaluate (.mk routes middlewares mountPaths) req res).handled = true ∧
      (Dispatcher.evaluate (.mk routes middlewares mountPaths) req res).executed
        = (runChain (effectiveChain middlewares r1.middlewares r1.fptrCallback)
            ({ req with params := (routeAccepts r1 req).2 }, res)).2 ∧
      (Dispatcher.evaluate (.mk routes middlewares mountPaths) req res).state
        = (runChain (effectiveChain middlewares r1.middlewares r1.fptrCallback)
            ({ req with params := (routeAccepts r1 req).2 }, res)).1 ∧
      (firstMatch routes req).map (fun x => x.1) = some i) := by
  have hsame : ∀ q : Request, routeAccepts r1 q = routeAccepts r2 q :=
    fun q => routeAccepts_congr r1 r2 q hm hp (by rw [hc1, hc2, hp])
  refine ⟨?_, ?_, ?_⟩
  · intro req x hx hxj
    obtain ⟨k, r, params⟩ := x
    obtain ⟨g1, g2, _, g4⟩ := firstMatch_some routes req k r params hx
    have hk : k = j := hxj
    subst hk
    rw [h2] at g1
    simp only [Option.some.injEq] at g1
    subst g1
    have := g4 i r1 hij h1
    rw [hsame, g2] at this
    exact absurd this (by decide)
  · intro req res hacc
    obtain ⟨x, hx1, hx2⟩ := firstMatch_of_accepts routes req i r1 h1 hacc
    obtain ⟨k, r, params⟩ := x
    have hev := evaluate_of_firstMatch routes middlewares mountPaths req res k r params hx1
    exact ⟨by rw [← hsame]; exact hacc, by rw [hev],
      ⟨(k, r, params), hx1, hx2, by
        have : k ≤ i := hx2
        show k ≠ j
        omega⟩⟩
  · intro req res hacc hnone
    have hfirst : firstMatch routes req = some (i, r1, (routeAccepts r1 req).2) := by
      obtain ⟨x, hx1, hx2⟩ := firstMatch_of_accepts routes req i r1 h1 hacc
      obtain ⟨k, r, params⟩ := x
      obtain ⟨g1, g2, g3, _⟩ := firstMatch_some routes req k r params hx1
      have hk : k = i := by
        rcases Nat.eq_or_lt_of_le hx2 with h | h
        · exact h
        · have := hnone k r h g1
          rw [g2] at this
          exact absurd this (by decide)
      subst hk
      rw [h1] at g1
      simp only [Option.some.injEq] at g1
      subst g1
      rw [hx1, g3]
    have hev := evaluate_of_firstMatch routes middlewares mountPaths req res i r1 _ hfirst
    exact ⟨by rw [hev], by rw [hev], by rw [hev], by rw [hfirst]; rfl⟩

/-- Witness for C11 (amended).  In the dispatcher with the routes `GET /b`,
`GET /a`, `GET /a`, in this order, the request `GET /a` is not matched by the
route registered before the pair, so the chain of the earlier route for `/a`
runs and the response is `A`.  In the dispatcher of the counterexample, with
`GET /:x` before the pair, the later route for `/a` is still never selected,
for any request, and `GET /a` is handled by a route registered no later than
the earlier one. -/
theorem evaluate_first_registered_witness :
    ((Dispatcher.evaluate (.mk [otherRoute, firstRoute, secondRoute] [] []) requestA
        []).handled = true ∧
      (Dispatcher.evaluate (.mk [otherRoute, firstRoute, secondRoute] [] []) requestA
        []).executed
        = (runChain (effectiveChain [] firstRoute.middlewares firstRoute.fptrCallback)
            ({ requestA with params := (routeAccepts firstRoute requestA).2 }, [])).2 ∧
      (Dispatcher.evaluate (.mk [otherRoute, firstRoute, secondRoute] [] []) requestA
        []).state
        = (runChain (effectiveChain [] firstRoute.middlewares firstRoute.fptrCallback)
            ({ requestA with params := (routeAccepts firstRoute requestA).2 }, [])).1 ∧
      (firstMatch [otherRoute, firstRoute, secondRoute] requestA).map (fun x => x.1)
        = some 1) ∧
    (Dispatcher.evaluate (.mk [otherRoute, firstRoute, secondRoute] [] []) requestA
      []).state.2 = ['A'] ∧
    (routeAccepts otherRoute requestA).1 = false ∧
    (∀ (req : Request) (x : Nat × Route (Request × List Char) × Params),
      firstMatch [wildcardRoute, firstRoute, secondRoute] req = some x → x.1 ≠ 2) ∧
    ((routeAccepts secondRoute requestA).1 = true ∧
      (Dispatcher.evaluate (.mk [wildcardRoute, firstRoute, secondRoute] [] []) requestA
        []).handled = true ∧
      ∃ x, firstMatch [wildcardRoute, firstRoute, secondRoute] requestA = some x ∧
        x.1 ≤ 1 ∧ x.1 ≠ 2) :=
  ⟨(evaluate_first_registered [otherRoute, firstRoute, secondRoute] [] [] 1 2 firstRoute
      secondRoute (by decide) rfl rfl rfl rfl rfl rfl).2.2 requestA [] (by decide)
      (fun k r hk hr => by
        have hk0 : k = 0 := by omega
        subst hk0
        have hr0 : otherRoute = r := by simpa using hr
        subst hr0
        decide),
   by decide,
   by decide,
   (evaluate_first_registered [wildcardRoute, firstRoute, secondRoute] [] [] 1 2 firstRoute
      secondRoute (by decide) rfl rfl rfl rfl rfl rfl).1,
   (evaluate_first_registered [wildcardRoute, firstRoute, secondRoute] [] [] 1 2 firstRoute
      secondRoute (by decide) rfl rfl rfl rfl rfl rfl).2.1 requestA [] (by decide)⟩

/-- C12: when no route of the dispatcher accepts the request and the entry
`(m, child)` is the first of the mount table whose mount path begins the
request path `m ++ r`, `evaluate` is the evaluation of the child with the
path `r`, or `/` when `r` is empty; so the child's `handled` is returned. -/
theorem evaluate_mount_rewrite {ρ : Type} (routes : List (Route (Request × ρ)))
    (middlewares : List (MiddlewareCallback (Request × ρ)))
    (before after : List (List Char × Dispatcher ρ)) (m r : List Char)
    (child : Dispatcher ρ) (req : Request) (res : ρ)
    (hpath : req.path = m ++ r) (hno : firstMatch routes req = none)
    (hbefore : ∀ e ∈ before, ¬ e.1 <+: req.path) :
    Dispatcher.evaluate (.mk routes middlewares (before ++ (m, child) :: after)) req res
      = child.evaluate { req with path := if r = [] then ['/'] else r } res ∧
    (Dispatcher.evaluate (.mk routes middlewares (before ++ (m, child) :: after)) req
        res).handled
      = (child.evaluate { req with path := if r = [] then ['/'] else r } res).handled := by
  have h : Dispatcher.evaluate (.mk routes middlewares (before ++ (m, child) :: after)) req res
      = child.evaluate { req with path := if r = [] then ['/'] else r } res := by
    rw [evaluate_of_no_match routes middlewares _ req res hno,
      evaluateMounts_first before after m child req res hbefore
        (by rw [hpath]; exact List.prefix_append m r),
      hpath, mountRemainder_append]
  exact ⟨h, by rw [h]⟩

/-- Witness for C12: under the mount path `/api`, the request path
`/api/users` is evaluated by the child as `/users` (response `U`), and `/api`
as `/` (response `R`). -/
theorem evaluate_mount_rewrite_witness :
    Dispatcher.evaluate apiParent ⟨Method.GET, "/api/users".toList, []⟩ []
      = Dispatcher.evaluate apiChild
          { (⟨Method.GET, "/api/users".toList, []⟩ : Request) with
            path := if "/users".toList = [] then ['/'] else "/users".toList } [] ∧
    mountRemainder "/api".toList "/api/users".toList = "/users".toList ∧
    mountRemainder "/api".toList "/api".toList = "/".toList ∧
    (Dispatcher.evaluate apiParent ⟨Method.GET, "/api/users".toList, []⟩ []).handled = true ∧
    (Dispatcher.evaluate apiParent ⟨Method.GET, "/api/users".toList, []⟩ []).state.2 = ['U'] ∧
    (Dispatcher.evaluate apiParent ⟨Method.GET, "/api".toList, []⟩ []).state.2 = ['R'] :=
  ⟨(evaluate_mount_rewrite [] [] [] [] "/api".toList "/users".toList apiChild
      ⟨Method.GET, "/api/users".toList, []⟩ [] (by decide) rfl
      (fun e he => absurd he (List.not_mem_nil e))).1,
   by decide, by decide, by decide, by decide, by decide⟩

end Express
